import Mathlib

/-!
Verification development for the commit-gen repository (a Conventional-Commit
message generator).  The TypeScript sources (`src/core.ts`, `src/anthropic.ts`)
are shallowly embedded over `List Char`: JavaScript strings become `List Char`,
regular-expression matches become explicit deterministic scanners, fallible
code returns `Option`/`Except`, and the network layer is abstracted by passing
the generator / HTTP response as explicit arguments.
-/

set_option maxRecDepth 8000

namespace CommitGen

/-- View of a Lean string literal as the `List Char` representation used throughout. -/
def str (s : String) : List Char := s.data

/-- JavaScript whitespace: the character class trimmed by `String.prototype.trim`
and matched by `\s` (restricted to the code points that can appear in this
development: ASCII whitespace, NBSP, line/paragraph separator, BOM). -/
def isJsWS (c : Char) : Bool :=
  c = ' ' || c = '\t' || c = '\n' || c = '\r' || c = '\x0b' || c = '\x0c' ||
  c = '\u00A0' || c = '\u2028' || c = '\u2029' || c = '\uFEFF'

/-- JavaScript regexp line terminators: the characters `.` does not match. -/
def isLineTerm (c : Char) : Bool :=
  c = '\n' || c = '\r' || c = '\u2028' || c = '\u2029'

/-- `s.trimStart()` -/
def trimLeft (s : List Char) : List Char := s.dropWhile isJsWS

/-- `s.trimEnd()` -/
def trimRight (s : List Char) : List Char := (s.reverse.dropWhile isJsWS).reverse

/-- `s.trim()` -/
def trimChars (s : List Char) : List Char := trimRight (trimLeft s)

/-- `s.replace(/\r\n/g, '\n')`: left-to-right, non-overlapping. -/
def replaceCRLF : List Char → List Char
  | [] => []
  | [c] => [c]
  | c :: d :: rest =>
    if c = '\r' && d = '\n' then '\n' :: replaceCRLF rest
    else c :: replaceCRLF (d :: rest)

/-- `s.split('\n')` (always returns at least one piece, like JavaScript). -/
def splitOnNL : List Char → List (List Char)
  | [] => [[]]
  | c :: rest =>
    if c = '\n' then [] :: splitOnNL rest
    else
      match splitOnNL rest with
      | [] => [[c]]
      | l :: ls => (c :: l) :: ls

/-- `pieces.join('\n')` -/
def joinNL : List (List Char) → List Char
  | [] => []
  | [l] => l
  | l :: l2 :: ls => l ++ '\n' :: joinNL (l2 :: ls)

/-- `s.replace(/\s+/g, ' ')`: auxiliary scanner; the boolean records whether the
previous character was whitespace (so a run collapses to a single space). -/
def collapseWSAux : Bool → List Char → List Char
  | _, [] => []
  | prevWS, c :: rest =>
    if isJsWS c then
      if prevWS then collapseWSAux true rest
      else ' ' :: collapseWSAux true rest
    else c :: collapseWSAux false rest

/-- `s.replace(/\s+/g, ' ')` -/
def collapseWS (s : List Char) : List Char := collapseWSAux false s

/-- Decimal rendering of a natural number, as JavaScript template interpolation
of a non-negative integer produces. -/
def natStr (n : Nat) : List Char := (Nat.repr n).data

/-- `[a-z]` -/
def isLowerAlpha (c : Char) : Bool := 'a' ≤ c && c ≤ 'z'

/-- `[a-z0-9-]` -/
def isTypeChar (c : Char) : Bool :=
  isLowerAlpha c || ('0' ≤ c && c ≤ '9') || c = '-'

/-- `ParsedCommitHeader` from core.ts. -/
structure ParsedCommitHeader where
  type : List Char
  scope : Option (List Char)
  breaking : Bool
  subject : List Char
deriving DecidableEq, Repr

/-- `subjectCase` enum from core.ts (`'lower' | 'sentence' | 'any'`). -/
inductive SubjectCase where
  | lower
  | sentence
  | anyCase
deriving DecidableEq, Repr

/-- `CommitGenRules` from core.ts.  `maxSubjectLength` is modelled as `Nat`
(the configuration loader clamps it into `[20, 120]`); `subjectCase` is carried
but read by no embedded function (the validator ignores it). -/
structure CommitGenRules where
  maxSubjectLength : Nat
  requireScope : Bool
  allowBreakingChange : Bool
  subjectCase : Option SubjectCase := none
deriving DecidableEq, Repr

/-- The `(!)?: ` tail of both header regexes: an optional literal `!`, then
the literal `: `.  Returns the breaking flag and the unconsumed remainder. -/
def afterBangColon : List Char → Option (Bool × List Char)
  | '!' :: ':' :: ' ' :: rest => some (true, rest)
  | ':' :: ' ' :: rest => some (false, rest)
  | _ => none

/-- The `(.+)$` tail of both header regexes: the remainder must be a non-empty
run of non-line-terminator characters; the captured subject is then trimmed
(core.ts applies `.trim()` to the capture). -/
def mkSubject? (rest : List Char) : Option (List Char) :=
  if rest.isEmpty then none
  else if rest.all (fun c => !isLineTerm c) then some (trimChars rest)
  else none

/-- The regex `/^([a-z][a-z0-9-]*)\(([^)]+)\)(!)?: (.+)$/` as a deterministic
scanner (the regex backtracks nowhere: each starred class is disjoint from the
character that follows it, so maximal munch is exact). -/
def matchWithScope (t : List Char) : Option ParsedCommitHeader :=
  match t with
  | [] => none
  | c :: rest =>
    if isLowerAlpha c then
      match rest.dropWhile isTypeChar with
      | '(' :: r2 =>
        match r2.dropWhile (fun d => d ≠ ')') with
        | ')' :: r4 =>
          if (r2.takeWhile (fun d => d ≠ ')')).isEmpty then none
          else
            match afterBangColon r4 with
            | some (bang, r5) =>
              (mkSubject? r5).map fun subj =>
                ⟨c :: rest.takeWhile isTypeChar, some (r2.takeWhile (fun d => d ≠ ')')), bang, subj⟩
            | none => none
        | _ => none
      | _ => none
    else none

/-- The regex `/^([a-z][a-z0-9-]*)(!)?: (.+)$/` as a deterministic scanner. -/
def matchNoScope (t : List Char) : Option ParsedCommitHeader :=
  match t with
  | [] => none
  | c :: rest =>
    if isLowerAlpha c then
      match afterBangColon (rest.dropWhile isTypeChar) with
      | some (bang, r2) =>
        (mkSubject? r2).map fun subj => ⟨c :: rest.takeWhile isTypeChar, none, bang, subj⟩
      | none => none
    else none

/-- `parseCommitHeader` from core.ts: trim the line, try the scoped form, then
the unscoped form, and return `none` (not an error) when neither matches. -/
def parseCommitHeader (line : List Char) : Option ParsedCommitHeader :=
  let t := trimChars line
  match matchWithScope t with
  | some h => some h
  | none => matchNoScope t

/-- The validator's result type (`{ok: true} | {ok: false; reason: string}`). -/
inductive ValidationResult where
  | ok : ValidationResult
  | failed (reason : List Char) : ValidationResult
deriving DecidableEq, Repr

def reasonInvalidHeader : List Char := str "Header is not a valid Conventional Commit header."

def reasonBadType (t : List Char) : List Char :=
  str "Type \"" ++ t ++ str "\" is not in allowed types."

def reasonMissingScope : List Char := str "Scope is required but missing."

def reasonBadScope (s : List Char) : List Char :=
  str "Scope \"" ++ s ++ str "\" is not in allowed scopes."

def reasonBreaking : List Char := str "Breaking marker is not allowed by rules."

def reasonEmptySubject : List Char := str "Subject is empty."

def reasonTooLong (actual maxLen : Nat) : List Char :=
  str "Subject is too long (" ++ natStr actual ++ str " > " ++ natStr maxLen ++ str ")."

/-- `validateCommitMessage` from core.ts.  The checks run in source order and
each failure returns immediately (modelled by nesting); the scope checks of the
two `requireScope` branches are merged by case analysis on the parsed scope,
which returns exactly the same result as the source's early returns. -/
def validateCommitMessage (message : List Char) (allowedTypes allowedScopes : List (List Char))
    (rules : CommitGenRules) : ValidationResult :=
  let lines := splitOnNL (replaceCRLF message)
  let headerLine := trimChars (lines.headD [])
  match parseCommitHeader headerLine with
  | none => .failed reasonInvalidHeader
  | some parsed =>
    if !(allowedTypes.contains parsed.type) then .failed (reasonBadType parsed.type)
    else
      let afterScope : ValidationResult :=
        if !rules.allowBreakingChange && parsed.breaking then .failed reasonBreaking
        else if parsed.subject.isEmpty then .failed reasonEmptySubject
        else if parsed.subject.length > rules.maxSubjectLength then
          .failed (reasonTooLong parsed.subject.length rules.maxSubjectLength)
        else .ok
      match parsed.scope with
      | none => if rules.requireScope then .failed reasonMissingScope else afterScope
      | some s =>
        if !(allowedScopes.contains s) then .failed (reasonBadScope s) else afterScope

/-- `clampSubject` from core.ts (`s` is written out: it is
`subject.replace(/\s+/g, ' ').trim()`). -/
def clampSubject (subject : List Char) (maxLen : Nat) : List Char :=
  if (trimChars (collapseWS subject)).isEmpty then []
  else if (trimChars (collapseWS subject)).length ≤ maxLen then trimChars (collapseWS subject)
  else trimRight ((trimChars (collapseWS subject)).take maxLen)

/-- `tryRepairSubjectLengthOnly` from core.ts.  Note that, unlike the
validator, it splits the raw message on `'\n'` without CRLF normalization,
exactly as the source does. -/
def tryRepairSubjectLengthOnly (message : List Char) (allowedTypes allowedScopes : List (List Char))
    (rules : CommitGenRules) : List Char :=
  match validateCommitMessage message allowedTypes allowedScopes rules with
  | .ok => message
  | .failed _ =>
    let lines := splitOnNL message
    let headerLine := trimChars (lines.headD [])
    match parseCommitHeader headerLine with
    | none => message
    | some parsed =>
      if parsed.subject.length ≤ rules.maxSubjectLength then message
      else
        let safeSubject := clampSubject parsed.subject rules.maxSubjectLength
        let scopePart := match parsed.scope with
          | some s => '(' :: (s ++ [')'])
          | none => []
        let breakingPart := if parsed.breaking then ['!'] else []
        let newHeader := parsed.type ++ scopePart ++ breakingPart ++ ':' :: ' ' :: safeSubject
        let rest := trimRight (joinNL (lines.drop 1))
        if rest.isEmpty then newHeader
        else trimRight (newHeader ++ '\n' :: rest)

/-- `normalizeCommitMessageText`'s first regex `/^```[\s\S]*?\n/` (lazy): when
the text starts with three backticks and a `'\n'` occurs later, drop everything
through the first `'\n'`; otherwise no match. -/
def stripLeadingFence (s : List Char) : List Char :=
  if (str "```").isPrefixOf s then
    let rest := s.drop 3
    if (rest.dropWhile (fun c => c ≠ '\n')).isEmpty then s
    else (rest.dropWhile (fun c => c ≠ '\n')).drop 1
  else s

/-- `normalizeCommitMessageText`'s second regex `/\n```$/`. -/
def stripTrailingFence (s : List Char) : List Char :=
  if (str "\n```").isSuffixOf s then s.take (s.length - 4) else s

/-- `normalizeCommitMessageText` from core.ts. -/
def normalizeCommitMessageText (text : List Char) : List Char :=
  let t := trimChars (replaceCRLF text)
  trimChars (stripTrailingFence (stripLeadingFence t))

/-- `diffKind` enum (`'staged' | 'working'`). -/
inductive DiffKind where
  | staged
  | working
deriving DecidableEq, Repr

/-- `buildSystemPrompt` from core.ts. -/
def buildSystemPrompt (allowedTypes allowedScopes : List (List Char)) (rules : CommitGenRules)
    (promptHints : Option (List Char)) : List Char :=
  let typeList := joinNL (allowedTypes.map (fun t => str "- " ++ t))
  let scopeList := joinNL (allowedScopes.map (fun s => str "- " ++ s))
  let scopeRule :=
    if rules.requireScope then str "Scope is REQUIRED. Header MUST be: type(scope)!?: subject"
    else str "Scope is optional. Header can be: type(scope)!?: subject OR type!?: subject"
  let breakingRule :=
    if rules.allowBreakingChange then str "Breaking marker \"!\" is allowed."
    else str "Breaking marker \"!\" is NOT allowed."
  let rulesLines : List (List Char) :=
    [str "You MUST output a valid Conventional Commit message.",
     str "Output only the commit message text. No code fences, no extra commentary.",
     [],
     str "You MUST choose a type ONLY from this allowed list:",
     typeList,
     [],
     str "You MUST choose a scope ONLY from this allowed list:",
     scopeList,
     [],
     scopeRule,
     breakingRule,
     str "Subject MUST be imperative mood, concise, and <= " ++ natStr rules.maxSubjectLength
       ++ str " characters."]
  let rulesLines := rulesLines ++
    (match rules.subjectCase with
     | some SubjectCase.lower => [str "Subject casing: lower."]
     | some SubjectCase.sentence => [str "Subject casing: sentence."]
     | _ => [])
  let rulesLines := rulesLines ++
    (match promptHints with
     | some h => [[], str "Additional project-specific instructions:", trimChars h]
     | none => [])
  joinNL rulesLines

/-- `buildUserPrompt` from core.ts. -/
def buildUserPrompt (status diff : List Char) (diffKind : DiffKind) : List Char :=
  let changesLabel :=
    match diffKind with
    | .staged => str "staged changes"
    | .working => str "current working tree changes (nothing staged)"
  let diffLabel :=
    match diffKind with
    | .staged => str "Staged diff:"
    | .working => str "Working tree diff:"
  joinNL
    [str "Generate a commit message for these " ++ changesLabel ++ str ".",
     [],
     str "Git status (porcelain):",
     status,
     [],
     diffLabel,
     diff]

/-- Inputs to one invocation of the generation orchestrator (the fields of the
resolved config and git context that `generateWithValidationAndRetry` reads). -/
structure GenInput where
  types : List (List Char)
  scopes : List (List Char)
  rules : CommitGenRules
  promptHints : Option (List Char)
  diff : List Char
  statusSummary : List Char
  diffKind : DiffKind

/-- `generateWithValidationAndRetry` from core.ts.  The network layer is
abstracted by `gen`, a deterministic function from (system prompt, user prompt)
to the text a successful API call returns (transport failures are modelled
separately, on `callAnthropicOrThrow`).  Alongside the pipeline result the
model returns the list of (system, user) prompt pairs given to `gen`, in call
order, so that theorems can speak about the number and content of the
generation calls. -/
def generateWithValidationAndRetry (gen : List Char → List Char → List Char) (inp : GenInput) :
    Except (List Char) (List Char) × List (List Char × List Char) :=
  let baseSystem := buildSystemPrompt inp.types inp.scopes inp.rules inp.promptHints
  let baseUser := buildUserPrompt inp.statusSummary inp.diff inp.diffKind
  let first := gen baseSystem baseUser
  let firstNormalized := normalizeCommitMessageText first
  let firstRepaired := tryRepairSubjectLengthOnly firstNormalized inp.types inp.scopes inp.rules
  match validateCommitMessage firstRepaired inp.types inp.scopes inp.rules with
  | .ok => (.ok firstRepaired, [(baseSystem, baseUser)])
  | .failed reason1 =>
    let retrySystem := joinNL
      [baseSystem,
       [],
       str "Your previous output failed validation.",
       str "Validation error: " ++ reason1,
       str "Rewrite the commit message so it passes all constraints."]
    let retryUser := joinNL
      [baseUser,
       [],
       str "Previous output (for correction):",
       firstNormalized]
    let second := gen retrySystem retryUser
    let secondNormalized := normalizeCommitMessageText second
    let secondRepaired := tryRepairSubjectLengthOnly secondNormalized inp.types inp.scopes inp.rules
    match validateCommitMessage secondRepaired inp.types inp.scopes inp.rules with
    | .ok => (.ok secondRepaired, [(baseSystem, baseUser), (retrySystem, retryUser)])
    | .failed reason2 =>
      (.error (str "Generated message failed validation after retry: " ++ reason2),
       [(baseSystem, baseUser), (retrySystem, retryUser)])

/-- `AnthropicError` from anthropic.ts (name, optional status code, optional
raw response body; the `message` field of the JS `Error`). -/
structure AnthropicError where
  message : List Char
  statusCode : Option Nat := none
  responseBody : Option (List Char) := none
deriving DecidableEq, Repr

/-- One element of the success body's `content` array.  The TS type annotation
says every block is a text block, but the code still filters on
`b.type === 'text'`, so the model keeps `type` as data. -/
structure AnthropicTextBlock where
  type : List Char
  text : List Char
deriving DecidableEq, Repr

/-- The fields of `AnthropicMessagesResponse` that `anthropicGenerateText`
reads (only `content`). -/
structure AnthropicMessagesResponse where
  content : List AnthropicTextBlock
deriving DecidableEq, Repr

/-- An HTTP response as delivered to the `res.on('end')` handler: final status
code and concatenated body text. -/
structure HttpResponse where
  statusCode : Nat
  body : List Char
deriving DecidableEq, Repr

/-- `anthropicGenerateText` from anthropic.ts, as a function of the HTTP
response the endpoint returned.  `decodeJson` abstracts `JSON.parse` followed
by reading the success schema (`none` models a parse failure); it is an
explicit argument so theorems can state that the non-2xx path never consults
it. -/
def anthropicGenerateText (decodeJson : List Char → Option AnthropicMessagesResponse)
    (resp : HttpResponse) : Except AnthropicError (List Char) :=
  if resp.statusCode < 200 || 300 ≤ resp.statusCode then
    .error ⟨str "Anthropic API request failed (" ++ natStr resp.statusCode ++ str ").",
            some resp.statusCode, some resp.body⟩
  else
    match decodeJson resp.body with
    | none => .error ⟨str "Anthropic API returned non-JSON response.", none, some resp.body⟩
    | some parsed =>
      let text := trimChars
        (((parsed.content.filter (fun b => b.type == str "text")).map
            (fun b => b.text)).flatten)
      if text.isEmpty then
        .error ⟨str "Anthropic API returned empty content.", none, some resp.body⟩
      else .ok text

/-- Errors surfaced by the core: a deliberate user-facing message, or a
propagated `AnthropicError` (anything else the source rethrows unchanged). -/
inductive CoreError where
  | userFacing (msg : List Char)
  | anthropic (e : AnthropicError)
deriving DecidableEq, Repr

/-- The user-facing text for a rejected API key (core.ts). -/
def keyRejectedMessage : List Char :=
  str "Anthropic API key was rejected (401). Check `commitGen.anthropicApiKey` or `ANTHROPIC_API_KEY`."

/-- `callAnthropicOrThrow` from core.ts: translate a 401 `AnthropicError` into
the specific user-facing key-rejected message and rethrow everything else. -/
def callAnthropicOrThrow (decodeJson : List Char → Option AnthropicMessagesResponse)
    (resp : HttpResponse) : Except CoreError (List Char) :=
  match anthropicGenerateText decodeJson resp with
  | .ok t => .ok t
  | .error e =>
    if e.statusCode = some 401 then .error (.userFacing keyRejectedMessage)
    else .error (.anthropic e)

/-- `DEFAULT_TYPES` from core.ts. -/
def DEFAULT_TYPES : List (List Char) :=
  [str "feat", str "fix", str "chore", str "docs", str "refactor", str "perf",
   str "test", str "build", str "ci", str "revert", str "style"]

/-- The rule overrides a `.commit-gen.json` may carry (`Partial<CommitGenRules>`
after `parseCommitGenConfigText`, which checks only that `rules` is an object).
`maxSubjectLength` is modelled as the already-truncated integer value
(`clampInt` applies `Math.trunc`); a non-finite or non-numeric JSON value makes
`Number.isFinite` false, which `clampInt` sends to the lower bound, the same
result as modelling it as the bound itself. -/
structure PartialRules where
  maxSubjectLength : Option Int := none
  requireScope : Option Bool := none
  allowBreakingChange : Option Bool := none
  subjectCase : Option SubjectCase := none
deriving DecidableEq, Repr

/-- A configuration as accepted by `parseCommitGenConfigText`: `scopes` is a
string array, `types` an optional string array, `rules` an optional object,
`promptHints` an optional string. -/
structure CommitGenConfigIn where
  scopes : List (List Char)
  types : Option (List (List Char)) := none
  rules : PartialRules := {}
  promptHints : Option (List Char) := none
deriving DecidableEq, Repr

/-- `CommitGenResolvedConfig` from core.ts (without `configPath`, which is
filesystem glue). -/
structure CommitGenResolvedConfig where
  scopes : List (List Char)
  types : List (List Char)
  rules : CommitGenRules
  promptHints : Option (List Char)
deriving DecidableEq, Repr

/-- `uniq` from core.ts: first occurrence of each element, in order. -/
def uniq (items : List (List Char)) : List (List Char) :=
  items.foldl (fun out item => if out.contains item then out else out ++ [item]) []

/-- `clampInt` from core.ts on an already-truncated finite value:
`Math.max(lo, Math.min(hi, n))`. -/
def clampInt (n lo hi : Int) : Int := max lo (min hi n)

/-- `loadCommitGenConfig` from core.ts, from the point where the file has been
read and `parseCommitGenConfigText` has accepted it (missing file and malformed
JSON are earlier `UserFacingError`s, before any resolution happens).  Returns
the thrown `UserFacingError` message (without the interpolated path) on the
remaining fatal case. -/
def loadCommitGenConfig (cfg : CommitGenConfigIn) : Except (List Char) CommitGenResolvedConfig :=
  let scopes := uniq ((cfg.scopes.map trimChars).filter (fun s => !s.isEmpty))
  if scopes.isEmpty then
    .error (str "`.commit-gen.json` must include at least 1 scope in `scopes`.")
  else
    let types := uniq (((cfg.types.getD DEFAULT_TYPES).map trimChars).filter (fun s => !s.isEmpty))
    let mergedMax : Int := cfg.rules.maxSubjectLength.getD 72
    let rules : CommitGenRules :=
      { maxSubjectLength := (clampInt mergedMax 20 120).toNat,
        requireScope := cfg.rules.requireScope.getD true,
        allowBreakingChange := cfg.rules.allowBreakingChange.getD true,
        subjectCase := some (cfg.rules.subjectCase.getD .anyCase) }
    let promptHints := match cfg.promptHints with
      | none => none
      | some h => if (trimChars h).isEmpty then none else some (trimChars h)
    .ok { scopes := scopes, types := types, rules := rules, promptHints := promptHints }

/-! ### Character-class facts -/

theorem isJsWS_cases {c : Char} (h : isJsWS c = true) :
    c = ' ' ∨ c = '\t' ∨ c = '\n' ∨ c = '\r' ∨ c = '\x0b' ∨ c = '\x0c' ∨
    c = ' ' ∨ c = ' ' ∨ c = ' ' ∨ c = '﻿' := by
  simp only [isJsWS, Bool.or_eq_true, decide_eq_true_eq] at h
  tauto

theorem not_ws_of_lowerAlpha {c : Char} (h : isLowerAlpha c = true) : isJsWS c = false := by
  by_contra hc
  rcases isJsWS_cases (by simpa using hc) with h' | h' | h' | h' | h' | h' | h' | h' | h' | h' <;>
    (subst h'; exact absurd h (by decide))

theorem ws_of_lineTerm {c : Char} (h : isLineTerm c = true) : isJsWS c = true := by
  rcases (by
      simp only [isLineTerm, Bool.or_eq_true, decide_eq_true_eq] at h
      tauto :
      c = '\n' ∨ c = '\r' ∨ c = ' ' ∨ c = ' ') with h' | h' | h' | h' <;>
    (subst h'; decide)

theorem isTypeChar_cases {c : Char} (h : isTypeChar c = true) :
    ('a' ≤ c ∧ c ≤ 'z') ∨ ('0' ≤ c ∧ c ≤ '9') ∨ c = '-' := by
  simp only [isTypeChar, isLowerAlpha, Bool.or_eq_true, Bool.and_eq_true,
    decide_eq_true_eq] at h
  tauto

theorem typeChar_not_ws {c : Char} (h : isTypeChar c = true) : isJsWS c = false := by
  by_contra hc
  rcases isJsWS_cases (by simpa using hc) with h' | h' | h' | h' | h' | h' | h' | h' | h' | h' <;>
    (subst h'; exact absurd h (by decide))

theorem typeChar_ne {c : Char} (h : isTypeChar c = true) :
    c ≠ '(' ∧ c ≠ ')' ∧ c ≠ ':' ∧ c ≠ '!' ∧ c ≠ '\n' := by
  rcases isTypeChar_cases h with ⟨h1, h2⟩ | ⟨h1, h2⟩ | h1
  · exact ⟨fun he => by subst he; exact absurd h1 (by decide),
      fun he => by subst he; exact absurd h1 (by decide),
      fun he => by subst he; exact absurd h1 (by decide),
      fun he => by subst he; exact absurd h1 (by decide),
      fun he => by subst he; exact absurd h1 (by decide)⟩
  · exact ⟨fun he => by subst he; exact absurd h1 (by decide),
      fun he => by subst he; exact absurd h1 (by decide),
      fun he => by subst he; exact absurd h2 (by decide),
      fun he => by subst he; exact absurd h1 (by decide),
      fun he => by subst he; exact absurd h1 (by decide)⟩
  · subst h1; exact ⟨by decide, by decide, by decide, by decide, by decide⟩

/-! ### Trimming lemmas -/

theorem dropWhile_eq_self_of_head {p : Char → Bool} {l : List Char}
    (h : ∀ c, l.head? = some c → p c = false) : l.dropWhile p = l := by
  cases l with
  | nil => rfl
  | cons c t => exact List.dropWhile_cons_of_neg (by simp [h c rfl])

/-- The last character of `s`, when it exists, is not JS whitespace. -/
def lastNotWS (s : List Char) : Prop :=
  ∀ c, s.reverse.head? = some c → isJsWS c = false

theorem reverse_trimRight (s : List Char) :
    (trimRight s).reverse = s.reverse.dropWhile isJsWS := by
  simp [trimRight]

theorem lastNotWS_trimRight (s : List Char) : lastNotWS (trimRight s) := by
  intro c hc
  rw [reverse_trimRight] at hc
  have := List.head?_dropWhile_not isJsWS s.reverse
  rw [hc] at this
  exact this

theorem trimRight_eq_self {s : List Char} (h : lastNotWS s) : trimRight s = s := by
  have : s.reverse.dropWhile isJsWS = s.reverse := dropWhile_eq_self_of_head h
  simp [trimRight, this]

theorem head_notWS_trimLeft (s : List Char) :
    ∀ c, (trimLeft s).head? = some c → isJsWS c = false := by
  intro c hc
  have := List.head?_dropWhile_not isJsWS s
  rw [show s.dropWhile isJsWS = trimLeft s from rfl, hc] at this
  exact this

theorem trimLeft_eq_self {s : List Char} (h : ∀ c, s.head? = some c → isJsWS c = false) :
    trimLeft s = s := dropWhile_eq_self_of_head h

theorem trimLeft_cons_of_neg {c : Char} {s : List Char} (h : isJsWS c = false) :
    trimLeft (c :: s) = c :: s :=
  List.dropWhile_cons_of_neg (by simp [h])

theorem trimRight_append_ws {c : Char} {s : List Char} (h : isJsWS c = true) :
    trimRight (s ++ [c]) = trimRight s := by
  simp [trimRight, List.dropWhile_cons_of_pos, h]

theorem trimRight_append_of_ne_nil {a b : List Char} (h : trimRight b ≠ []) :
    trimRight (a ++ b) = a ++ trimRight b := by
  have hb : (b.reverse.dropWhile isJsWS).isEmpty = false := by
    rcases hb' : b.reverse.dropWhile isJsWS with _ | _
    · exact absurd (by simp [trimRight, hb']) h
    · rfl
  simp only [trimRight, List.reverse_append, List.dropWhile_append, hb, if_neg Bool.false_ne_true]
  simp

theorem trimRight_cons_of_neg {c : Char} {s : List Char} (h : isJsWS c = false) :
    trimRight (c :: s) = c :: trimRight s := by
  simp only [trimRight, List.reverse_cons, List.dropWhile_append]
  rcases hs : s.reverse.dropWhile isJsWS with _ | ⟨d, t⟩
  · simp [List.dropWhile_cons_of_neg, h]
  · simp

theorem trimLeft_trimRight_comm (s : List Char) :
    trimLeft (trimRight s) = trimRight (trimLeft s) := by
  rcases hl : trimLeft s with _ | ⟨c, t⟩
  · have hsws : ∀ d ∈ s, isJsWS d = true := by
      intro d hd
      by_contra hdws
      have hsub : s.takeWhile isJsWS = s := by
        have hsplit := List.takeWhile_append_dropWhile isJsWS s
        rw [show s.dropWhile isJsWS = trimLeft s from rfl, hl, List.append_nil] at hsplit
        exact hsplit
      exact hdws (List.mem_takeWhile_imp (by rw [hsub]; exact hd))
    have hrev : ∀ d ∈ s.reverse, isJsWS d = true := fun d hd => hsws d (by simpa using hd)
    have htr : trimRight s = [] := by
      simp only [trimRight]
      rw [List.dropWhile_eq_nil_iff.mpr hrev]
      rfl
    rw [htr]
    rfl
  · have hc : isJsWS c = false := head_notWS_trimLeft s c (by rw [hl]; rfl)
    have hsplit := List.takeWhile_append_dropWhile isJsWS s
    rw [show s.dropWhile isJsWS = trimLeft s from rfl, hl] at hsplit
    have hpre : ∀ d ∈ s.takeWhile isJsWS, isJsWS d = true := fun d hd => List.mem_takeWhile_imp hd
    have h1 : trimRight (c :: t) ≠ [] := by simp [trimRight_cons_of_neg hc]
    have step1 : trimRight s = s.takeWhile isJsWS ++ (c :: trimRight t) := by
      conv_lhs => rw [← hsplit]
      rw [trimRight_append_of_ne_nil h1, trimRight_cons_of_neg hc]
    have h2 : trimLeft (s.takeWhile isJsWS ++ (c :: trimRight t)) = trimLeft (c :: trimRight t) := by
      simp only [trimLeft, List.dropWhile_append]
      rw [List.dropWhile_eq_nil_iff.mpr hpre]
      rfl
    rw [step1, h2, trimLeft_cons_of_neg hc, trimRight_cons_of_neg hc]

theorem lastNotWS_trimChars (s : List Char) : lastNotWS (trimChars s) :=
  lastNotWS_trimRight _

theorem head_notWS_trimChars (s : List Char) :
    ∀ c, (trimChars s).head? = some c → isJsWS c = false := by
  intro c hc
  rw [trimChars, ← trimLeft_trimRight_comm] at hc
  exact head_notWS_trimLeft _ c hc

theorem trimChars_eq_self {s : List Char} (hh : ∀ c, s.head? = some c → isJsWS c = false)
    (hl : lastNotWS s) : trimChars s = s := by
  rw [trimChars, trimLeft_eq_self hh, trimRight_eq_self hl]

theorem trimChars_idem (s : List Char) : trimChars (trimChars s) = trimChars s :=
  trimChars_eq_self (head_notWS_trimChars s) (lastNotWS_trimChars s)

theorem trimChars_append_ws {c : Char} {s : List Char} (h : isJsWS c = true) :
    trimChars (s ++ [c]) = trimChars s := by
  rw [trimChars, ← trimLeft_trimRight_comm, trimRight_append_ws h, trimLeft_trimRight_comm]
  rfl

theorem lastNotWS_append {a b : List Char} (hb : lastNotWS b) (hne : b ≠ []) :
    lastNotWS (a ++ b) := by
  intro c hc
  apply hb c
  have hrev : b.reverse ≠ [] := by simpa using hne
  rw [List.reverse_append, List.head?_append_of_ne_nil _ hrev] at hc
  exact hc

theorem lastNotWS_of_append {a b : List Char} (h : lastNotWS (a ++ b)) (hne : b ≠ []) :
    lastNotWS b := by
  intro c hc
  apply h c
  have hrev : b.reverse ≠ [] := by simpa using hne
  rw [List.reverse_append, List.head?_append_of_ne_nil _ hrev]
  exact hc

theorem mem_trimLeft_of_not_ws {c : Char} {s : List Char} (hc : isJsWS c = false)
    (hm : c ∈ s) : c ∈ trimLeft s := by
  have hsplit := List.takeWhile_append_dropWhile isJsWS s
  rcases (List.mem_append.mp (hsplit ▸ hm)) with h | h
  · exact absurd (List.mem_takeWhile_imp h) (by simp [hc])
  · exact h

theorem mem_trimRight_of_not_ws {c : Char} {s : List Char} (hc : isJsWS c = false)
    (hm : c ∈ s) : c ∈ trimRight s := by
  have : c ∈ s.reverse.dropWhile isJsWS :=
    mem_trimLeft_of_not_ws hc (by simpa using hm)
  rw [← reverse_trimRight] at this
  simpa using this

theorem mem_trimChars_of_not_ws {c : Char} {s : List Char} (hc : isJsWS c = false)
    (hm : c ∈ s) : c ∈ trimChars s :=
  mem_trimRight_of_not_ws hc (mem_trimLeft_of_not_ws hc hm)

theorem mem_of_mem_trimLeft {c : Char} {s : List Char} (h : c ∈ trimLeft s) : c ∈ s :=
  (List.dropWhile_sublist isJsWS).mem h

theorem mem_of_mem_trimRight {c : Char} {s : List Char} (h : c ∈ trimRight s) : c ∈ s := by
  have : c ∈ s.reverse.dropWhile isJsWS := by rw [← reverse_trimRight]; simpa using h
  simpa using (List.dropWhile_sublist isJsWS).mem this

theorem mem_of_mem_trimChars {c : Char} {s : List Char} (h : c ∈ trimChars s) : c ∈ s :=
  mem_of_mem_trimLeft (mem_of_mem_trimRight h)

theorem trimChars_ne_nil_of_mem {c : Char} {s : List Char} (hc : isJsWS c = false)
    (hm : c ∈ s) : trimChars s ≠ [] := by
  intro h
  exact absurd (h ▸ mem_trimChars_of_not_ws hc hm) (List.not_mem_nil c)

theorem trimRight_length_le (s : List Char) : (trimRight s).length ≤ s.length := by
  have := (List.dropWhile_sublist (l := s.reverse) isJsWS).length_le
  simpa [trimRight] using this

/-! ### split / join lemmas -/

theorem splitOnNL_ne_nil (s : List Char) : splitOnNL s ≠ [] := by
  cases s with
  | nil => simp [splitOnNL]
  | cons c rest =>
    simp only [splitOnNL]
    split
    · simp
    · split <;> simp

theorem headD_splitOnNL (s : List Char) :
    (splitOnNL s).headD [] = s.takeWhile (fun c => c ≠ '\n') := by
  induction s with
  | nil => rfl
  | cons c rest ih =>
    by_cases hc : c = '\n'
    · subst hc; simp [splitOnNL, List.takeWhile_cons]
    · simp only [splitOnNL, if_neg hc]
      rcases hs : splitOnNL rest with _ | ⟨l, ls⟩
      · exact absurd hs (splitOnNL_ne_nil rest)
      · rw [hs] at ih
        simp only [List.headD_cons] at ih
        rw [List.takeWhile_cons_of_pos (by simp [hc]), ← ih]
        rfl

theorem splitOnNL_append {a : List Char} (ha : ∀ c ∈ a, c ≠ '\n') (b : List Char) :
    splitOnNL (a ++ '\n' :: b) = a :: splitOnNL b := by
  induction a with
  | nil => simp [splitOnNL]
  | cons c a' ih =>
    have hc : c ≠ '\n' := ha c (by simp)
    have ih' := ih (fun d hd => ha d (by simp [hd]))
    show splitOnNL (c :: (a' ++ '\n' :: b)) = (c :: a') :: splitOnNL b
    simp only [splitOnNL, if_neg hc]
    have hred : (match splitOnNL (a' ++ '\n' :: b) with
        | [] => [[c]]
        | l :: ls => (c :: l) :: ls) = (c :: a') :: splitOnNL b := by rw [ih']
    exact hred

theorem splitOnNL_no_nl {s : List Char} (h : ∀ c ∈ s, c ≠ '\n') : splitOnNL s = [s] := by
  induction s with
  | nil => rfl
  | cons c rest ih =>
    have hc : c ≠ '\n' := h c (by simp)
    have ih' := ih (fun d hd => h d (by simp [hd]))
    simp only [splitOnNL, if_neg hc, ih']

theorem joinNL_cons_head (c : Char) (l : List Char) (ls : List (List Char)) :
    joinNL ((c :: l) :: ls) = c :: joinNL (l :: ls) := by
  cases ls <;> rfl

theorem joinNL_splitOnNL (s : List Char) : joinNL (splitOnNL s) = s := by
  induction s with
  | nil => rfl
  | cons c rest ih =>
    by_cases hc : c = '\n'
    · subst hc
      simp only [splitOnNL, if_pos rfl]
      rcases hs : splitOnNL rest with _ | ⟨l, ls⟩
      · exact absurd hs (splitOnNL_ne_nil rest)
      · rw [hs] at ih
        show joinNL ([] :: l :: ls) = '\n' :: rest
        rw [show joinNL ([] :: l :: ls) = [] ++ '\n' :: joinNL (l :: ls) from rfl]
        rw [ih]; rfl
    · simp only [splitOnNL, if_neg hc]
      rcases hs : splitOnNL rest with _ | ⟨l, ls⟩
      · exact absurd hs (splitOnNL_ne_nil rest)
      · rw [hs] at ih
        rw [joinNL_cons_head, ih]

/-! ### replaceCRLF lemmas -/

theorem replaceCRLF_cons_ne_cr {c : Char} (h : c ≠ '\r') (s : List Char) :
    replaceCRLF (c :: s) = c :: replaceCRLF s := by
  cases s with
  | nil => rfl
  | cons d rest => simp [replaceCRLF, h]

theorem replaceCRLF_cons_cr_ne_nl {d : Char} (h : d ≠ '\n') (s : List Char) :
    replaceCRLF ('\r' :: d :: s) = '\r' :: replaceCRLF (d :: s) := by
  simp [replaceCRLF, h]

theorem replaceCRLF_no_nl : ∀ {s : List Char}, (∀ c ∈ s, c ≠ '\n') → replaceCRLF s = s := by
  intro s
  induction s with
  | nil => exact fun _ => rfl
  | cons c rest ih =>
    intro h
    by_cases hc : c = '\r'
    · subst hc
      cases rest with
      | nil => rfl
      | cons d r2 =>
        have hd : d ≠ '\n' := h d (by simp)
        rw [replaceCRLF_cons_cr_ne_nl hd, ih (fun e he => h e (by simp [he]))]
    · rw [replaceCRLF_cons_ne_cr hc, ih (fun e he => h e (by simp [he]))]

theorem replaceCRLF_append_nl :
    ∀ (a : List Char), (∀ c ∈ a, c ≠ '\n') → a.getLast? ≠ some '\r' →
      ∀ b, replaceCRLF (a ++ '\n' :: b) = a ++ '\n' :: replaceCRLF b := by
  intro a
  induction a with
  | nil => exact fun _ _ b => replaceCRLF_cons_ne_cr (by decide) b
  | cons x a' ih =>
    intro ha hlast b
    by_cases hx : x = '\r'
    · subst hx
      cases a' with
      | nil => simp at hlast
      | cons y a'' =>
        have hy : y ≠ '\n' := ha y (by simp)
        have hlast' : (y :: a'').getLast? ≠ some '\r' := by
          simpa [List.getLast?_cons_cons] using hlast
        have ih' := ih (fun d hd => ha d (by simp [hd])) hlast' b
        show replaceCRLF ('\r' :: (y :: (a'' ++ '\n' :: b))) = '\r' :: ((y :: a'') ++ '\n' :: replaceCRLF b)
        rw [replaceCRLF_cons_cr_ne_nl hy]
        exact congrArg (List.cons '\r') ih'
    · have ih' := ih (fun d hd => ha d (by simp [hd]))
        (by cases a' with
            | nil => simp
            | cons y a'' => simpa [List.getLast?_cons_cons] using hlast) b
      show replaceCRLF (x :: (a' ++ '\n' :: b)) = x :: (a' ++ '\n' :: replaceCRLF b)
      rw [replaceCRLF_cons_ne_cr hx]
      exact congrArg (List.cons x) ih'

theorem headNL_replaceCRLF (s : List Char) :
    (replaceCRLF s).takeWhile (fun c => c ≠ '\n') = s.takeWhile (fun c => c ≠ '\n') ∨
    s.takeWhile (fun c => c ≠ '\n') =
      (replaceCRLF s).takeWhile (fun c => c ≠ '\n') ++ ['\r'] := by
  induction s using replaceCRLF.induct with
  | case1 => exact .inl rfl
  | case2 c => exact .inl rfl
  | case3 c d rest hcd ih =>
    have hc : c = '\r' ∧ d = '\n' := by simpa using hcd
    rcases hc with ⟨hc, hd⟩
    subst hc; subst hd
    right
    have hstep : replaceCRLF ('\r' :: '\n' :: rest) = '\n' :: replaceCRLF rest := by
      simp [replaceCRLF]
    rw [hstep]
    simp [List.takeWhile_cons]
  | case4 c d rest hcd ih =>
    have hstep : replaceCRLF (c :: d :: rest) = c :: replaceCRLF (d :: rest) := by
      simp only [replaceCRLF]
      split
      · next htrue =>
          have hpair : c = '\r' ∧ d = '\n' := by simpa using htrue
          exact absurd hpair (by simpa using hcd)
      · rfl
    rw [hstep]
    by_cases hc : c = '\n'
    · subst hc
      left
      simp [List.takeWhile_cons]
    · rcases ih with h | h
      · left
        simp only [decide_not] at h
        simp [List.takeWhile_cons, hc, h]
      · right
        simp only [decide_not] at h
        simp [List.takeWhile_cons, hc, h]

theorem validate_headerLine_eq (m : List Char) :
    trimChars ((splitOnNL (replaceCRLF m)).headD []) = trimChars ((splitOnNL m).headD []) := by
  rw [headD_splitOnNL, headD_splitOnNL]
  rcases headNL_replaceCRLF m with h | h
  · rw [h]
  · rw [h, trimChars_append_ws (by decide)]

/-! ### collapseWS and clampSubject lemmas -/

theorem mem_collapseWSAux {c : Char} :
    ∀ {b : Bool} {s : List Char}, c ∈ collapseWSAux b s → c = ' ' ∨ (c ∈ s ∧ isJsWS c = false) := by
  intro b s
  induction s generalizing b with
  | nil => intro h; simp [collapseWSAux] at h
  | cons d rest ih =>
    intro h
    simp only [collapseWSAux] at h
    by_cases hd : isJsWS d = true
    · rw [if_pos hd] at h
      by_cases hb : b = true
      · subst hb
        rw [if_pos rfl] at h
        rcases ih h with h' | ⟨h1, h2⟩
        · exact .inl h'
        · exact .inr ⟨by simp [h1], h2⟩
      · rw [if_neg hb] at h
        rcases List.mem_cons.mp h with h' | h'
        · exact .inl h'
        · rcases ih h' with h'' | ⟨h1, h2⟩
          · exact .inl h''
          · exact .inr ⟨by simp [h1], h2⟩
    · rw [if_neg hd] at h
      rcases List.mem_cons.mp h with h' | h'
      · subst h'; exact .inr ⟨by simp, by simpa using hd⟩
      · rcases ih h' with h'' | ⟨h1, h2⟩
        · exact .inl h''
        · exact .inr ⟨by simp [h1], h2⟩

theorem collapseWSAux_keeps {c : Char} (hc : isJsWS c = false) :
    ∀ {b : Bool} {s : List Char}, c ∈ s → c ∈ collapseWSAux b s := by
  intro b s
  induction s generalizing b with
  | nil => intro h; simp at h
  | cons d rest ih =>
    intro h
    simp only [collapseWSAux]
    by_cases hd : isJsWS d = true
    · have hcr : c ∈ rest := by
        rcases List.mem_cons.mp h with h' | h'
        · subst h'; rw [hd] at hc; exact absurd hc (by simp)
        · exact h'
      rw [if_pos hd]
      by_cases hb : b = true
      · subst hb; rw [if_pos rfl]; exact ih hcr
      · rw [if_neg hb]; exact List.mem_cons_of_mem _ (ih hcr)
    · rw [if_neg hd]
      rcases List.mem_cons.mp h with h' | h'
      · subst h'; exact List.mem_cons_self _ _
      · exact List.mem_cons_of_mem _ (ih h')

theorem not_lineTerm_of_mem_collapseWS {c : Char} {s : List Char} (h : c ∈ collapseWS s) :
    isLineTerm c = false := by
  rcases mem_collapseWSAux h with h' | ⟨_, h2⟩
  · subst h'; decide
  · by_contra hb
    rw [ws_of_lineTerm (by simpa using hb)] at h2
    exact absurd h2 (by simp)

theorem clampSubject_length_le (subject : List Char) (maxLen : Nat) :
    (clampSubject subject maxLen).length ≤ maxLen := by
  unfold clampSubject
  split
  · simp
  · next h =>
    split
    · next h2 => exact h2
    · calc (trimRight ((trimChars (collapseWS subject)).take maxLen)).length
          ≤ ((trimChars (collapseWS subject)).take maxLen).length := trimRight_length_le _
        _ ≤ maxLen := by simp

theorem mem_clampSubject {c : Char} {subject : List Char} {maxLen : Nat}
    (h : c ∈ clampSubject subject maxLen) : c ∈ collapseWS subject := by
  unfold clampSubject at h
  split at h
  · simp at h
  · split at h
    · exact mem_of_mem_trimChars h
    · exact mem_of_mem_trimChars (List.mem_of_mem_take (mem_of_mem_trimRight h))

theorem not_lineTerm_of_mem_clampSubject {c : Char} {subject : List Char} {maxLen : Nat}
    (h : c ∈ clampSubject subject maxLen) : isLineTerm c = false :=
  not_lineTerm_of_mem_collapseWS (mem_clampSubject h)

theorem lastNotWS_cons {c : Char} {s : List Char} (hc : isJsWS c = false)
    (hs : lastNotWS s) : lastNotWS (c :: s) := by
  intro e he
  rcases hrev : s.reverse with _ | ⟨x, xs⟩
  · have hsnil : s = [] := by simpa using congrArg List.reverse hrev
    subst hsnil
    simp only [List.reverse_cons, List.reverse_nil, List.nil_append, List.head?_cons,
      Option.some.injEq] at he
    rw [← he]; exact hc
  · rw [List.reverse_cons, hrev] at he
    simp only [List.cons_append, List.head?_cons, Option.some.injEq] at he
    exact hs e (by rw [hrev]; simp [he])

theorem trimChars_clampSubject (subject : List Char) (maxLen : Nat) :
    trimChars (clampSubject subject maxLen) = clampSubject subject maxLen := by
  unfold clampSubject
  split
  · rfl
  · next hne =>
    split
    · exact trimChars_idem _
    · next hlen =>
      cases maxLen with
      | zero => simp [trimChars, trimLeft, trimRight]
      | succ m' =>
        rcases hs : trimChars (collapseWS subject) with _ | ⟨c, s'⟩
        · exact absurd (by rw [hs]; rfl) hne
        · have hc : isJsWS c = false :=
            head_notWS_trimChars (collapseWS subject) c (by rw [hs]; rfl)
          rw [List.take_cons (by omega), trimRight_cons_of_neg hc]
          exact trimChars_eq_self
            (by intro e he
                simp only [List.head?_cons, Option.some.injEq] at he
                rw [← he]; exact hc)
            (lastNotWS_cons hc (lastNotWS_trimRight _))

theorem clampSubject_ne_nil {subject : List Char} {maxLen : Nat}
    (hne : trimChars (collapseWS subject) ≠ []) (hm : 1 ≤ maxLen) :
    clampSubject subject maxLen ≠ [] := by
  unfold clampSubject
  split
  · next h => exact absurd (by simpa using h) hne
  · split
    · exact hne
    · rcases hs : trimChars (collapseWS subject) with _ | ⟨c, s'⟩
      · exact absurd hs hne
      · have hc : isJsWS c = false :=
          head_notWS_trimChars (collapseWS subject) c (by rw [hs]; rfl)
        rcases hm' : maxLen with _ | m'
        · omega
        · rw [List.take_cons (by omega), trimRight_cons_of_neg hc]
          simp

/-! ### Header scanner lemmas -/

theorem takeWhile_append_cons {p : Char → Bool} {a : List Char} (ha : ∀ c ∈ a, p c = true)
    {d : Char} (hd : p d = false) (b : List Char) :
    (a ++ d :: b).takeWhile p = a := by
  rw [List.takeWhile_append_of_pos ha, List.takeWhile_cons_of_neg (by simp [hd])]
  simp

theorem dropWhile_append_cons {p : Char → Bool} {a : List Char} (ha : ∀ c ∈ a, p c = true)
    {d : Char} (hd : p d = false) (b : List Char) :
    (a ++ d :: b).dropWhile p = d :: b := by
  rw [List.dropWhile_append_of_pos ha, List.dropWhile_cons_of_neg (by simp [hd])]

theorem afterBangColon_eq_some {r : List Char} {b : Bool} {r5 : List Char}
    (h : afterBangColon r = some (b, r5)) :
    (b = true ∧ r = '!' :: ':' :: ' ' :: r5) ∨ (b = false ∧ r = ':' :: ' ' :: r5) := by
  unfold afterBangColon at h
  split at h <;> simp_all

theorem afterBangColon_append (bangChars subj : List Char) (breaking : Bool)
    (hbang : bangChars = if breaking then ['!'] else []) :
    afterBangColon (bangChars ++ (':' :: (' ' :: subj))) = some (breaking, subj) := by
  cases breaking <;> simp [hbang] <;> rfl

theorem mkSubject?_eq_some {rest subj : List Char} (h : mkSubject? rest = some subj) :
    rest ≠ [] ∧ (∀ c ∈ rest, isLineTerm c = false) ∧ subj = trimChars rest := by
  unfold mkSubject? at h
  split at h
  · exact absurd h (by simp)
  · next hne =>
    split at h
    · next hall =>
      refine ⟨by simpa using hne, ?_, by simpa using h.symm⟩
      intro c hc
      simpa using List.all_eq_true.mp hall c hc
    · exact absurd h (by simp)

theorem mkSubject?_of {rest : List Char} (hne : rest ≠ [])
    (hlt : ∀ c ∈ rest, isLineTerm c = false) :
    mkSubject? rest = some (trimChars rest) := by
  unfold mkSubject?
  rw [if_neg (by simpa using hne),
    if_pos (List.all_eq_true.mpr (fun c hc => by simp [hlt c hc]))]

/-- A token matching `[a-z][a-z0-9-]*` (spec §4.1's `type`). -/
def TypeToken (ty : List Char) : Prop :=
  ∃ c cs, ty = c :: cs ∧ isLowerAlpha c = true ∧ ∀ d ∈ cs, isTypeChar d = true

theorem matchWithScope_format {c : Char} {cs scope bangChars subj : List Char} {breaking : Bool}
    (hc : isLowerAlpha c = true) (hcs : ∀ d ∈ cs, isTypeChar d = true)
    (hsne : scope ≠ []) (hsp : ∀ e ∈ scope, e ≠ ')')
    (hbang : bangChars = if breaking then ['!'] else [])
    (hsubj : subj ≠ []) (hlt : ∀ e ∈ subj, isLineTerm e = false) :
    matchWithScope
      (c :: (cs ++ ('(' :: (scope ++ (')' :: (bangChars ++ (':' :: (' ' :: subj)))))))) =
      some ⟨c :: cs, some scope, breaking, trimChars subj⟩ := by
  have hdrop : (cs ++ ('(' :: (scope ++ (')' :: (bangChars ++ (':' :: (' ' :: subj))))))).dropWhile
      isTypeChar = '(' :: (scope ++ (')' :: (bangChars ++ (':' :: (' ' :: subj))))) :=
    dropWhile_append_cons hcs (by decide) _
  have htake : (cs ++ ('(' :: (scope ++ (')' :: (bangChars ++ (':' :: (' ' :: subj))))))).takeWhile
      isTypeChar = cs :=
    takeWhile_append_cons hcs (by decide) _
  have hsp' : ∀ e ∈ scope, (fun d => decide (d ≠ ')')) e = true := by
    intro e he; simp [hsp e he]
  have hdrop2 : (scope ++ (')' :: (bangChars ++ (':' :: (' ' :: subj))))).dropWhile
      (fun d => decide (d ≠ ')')) = ')' :: (bangChars ++ (':' :: (' ' :: subj))) :=
    @dropWhile_append_cons _ _ hsp' ')' (by decide) _
  have htake2 : (scope ++ (')' :: (bangChars ++ (':' :: (' ' :: subj))))).takeWhile
      (fun d => decide (d ≠ ')')) = scope :=
    @takeWhile_append_cons _ _ hsp' ')' (by decide) _
  have hse : scope.isEmpty = false := by simpa using hsne
  have habc := afterBangColon_append bangChars subj breaking hbang
  have hmk := mkSubject?_of hsubj hlt
  simp only [matchWithScope, hc, if_true, hdrop, htake, hdrop2, htake2, hse,
    Bool.false_eq_true, if_false, habc, hmk, Option.map_some']

theorem matchNoScope_format {c : Char} {cs bangChars subj : List Char} {breaking : Bool}
    (hc : isLowerAlpha c = true) (hcs : ∀ d ∈ cs, isTypeChar d = true)
    (hbang : bangChars = if breaking then ['!'] else [])
    (hsubj : subj ≠ []) (hlt : ∀ e ∈ subj, isLineTerm e = false) :
    matchNoScope (c :: (cs ++ (bangChars ++ (':' :: (' ' :: subj))))) =
      some ⟨c :: cs, none, breaking, trimChars subj⟩ := by
  have hdrop : (cs ++ (bangChars ++ (':' :: (' ' :: subj)))).dropWhile isTypeChar
      = bangChars ++ (':' :: (' ' :: subj)) := by
    rw [List.dropWhile_append_of_pos hcs]
    cases breaking with
    | false =>
      simp only [if_false, Bool.false_eq_true] at hbang
      rw [hbang]
      show (':' :: ' ' :: subj).dropWhile isTypeChar = ':' :: ' ' :: subj
      rw [List.dropWhile_cons_of_neg (by decide)]
    | true =>
      simp only [if_true] at hbang
      rw [hbang]
      show ('!' :: ':' :: ' ' :: subj).dropWhile isTypeChar = '!' :: ':' :: ' ' :: subj
      rw [List.dropWhile_cons_of_neg (by decide)]
  have htake : (cs ++ (bangChars ++ (':' :: (' ' :: subj)))).takeWhile isTypeChar = cs := by
    rw [List.takeWhile_append_of_pos hcs]
    cases breaking with
    | false =>
      simp only [if_false, Bool.false_eq_true] at hbang
      rw [hbang]
      show cs ++ (':' :: ' ' :: subj).takeWhile isTypeChar = cs
      rw [List.takeWhile_cons_of_neg (by decide)]
      simp
    | true =>
      simp only [if_true] at hbang
      rw [hbang]
      show cs ++ ('!' :: ':' :: ' ' :: subj).takeWhile isTypeChar = cs
      rw [List.takeWhile_cons_of_neg (by decide)]
      simp
  have habc := afterBangColon_append bangChars subj breaking hbang
  have hmk := mkSubject?_of hsubj hlt
  simp only [matchNoScope, hc, if_true, hdrop, htake, habc, hmk, Option.map_some']

theorem matchWithScope_noscope_none {c : Char} {cs bangChars subj : List Char} {breaking : Bool}
    (hcs : ∀ d ∈ cs, isTypeChar d = true)
    (hbang : bangChars = if breaking then ['!'] else []) :
    matchWithScope (c :: (cs ++ (bangChars ++ (':' :: (' ' :: subj))))) = none := by
  have hdrop : (cs ++ (bangChars ++ (':' :: (' ' :: subj)))).dropWhile isTypeChar
      = bangChars ++ (':' :: (' ' :: subj)) := by
    rw [List.dropWhile_append_of_pos hcs]
    cases breaking with
    | false =>
      simp only [if_false, Bool.false_eq_true] at hbang
      rw [hbang]
      show (':' :: ' ' :: subj).dropWhile isTypeChar = ':' :: ' ' :: subj
      rw [List.dropWhile_cons_of_neg (by decide)]
    | true =>
      simp only [if_true] at hbang
      rw [hbang]
      show ('!' :: ':' :: ' ' :: subj).dropWhile isTypeChar = '!' :: ':' :: ' ' :: subj
      rw [List.dropWhile_cons_of_neg (by decide)]
  simp only [matchWithScope, hdrop]
  cases breaking with
  | false =>
    simp only [if_false, Bool.false_eq_true] at hbang
    rw [hbang]
    simp
  | true =>
    simp only [if_true] at hbang
    rw [hbang]
    simp

theorem matchWithScope_eq_some {t : List Char} {h : ParsedCommitHeader}
    (hm : matchWithScope t = some h) :
    ∃ c cs scope bangChars subjRaw,
      t = c :: (cs ++ ('(' :: (scope ++ (')' :: (bangChars ++ (':' :: (' ' :: subjRaw))))))) ∧
      isLowerAlpha c = true ∧ (∀ d ∈ cs, isTypeChar d = true) ∧
      scope ≠ [] ∧ (∀ e ∈ scope, e ≠ ')') ∧
      bangChars = (if h.breaking then ['!'] else []) ∧
      subjRaw ≠ [] ∧ (∀ e ∈ subjRaw, isLineTerm e = false) ∧
      h.type = c :: cs ∧ h.scope = some scope ∧ h.subject = trimChars subjRaw := by
  rcases t with _ | ⟨c, rest⟩
  · exact absurd hm (by simp [matchWithScope])
  · simp only [matchWithScope] at hm
    by_cases hca : isLowerAlpha c = true
    case neg => rw [if_neg hca] at hm; exact absurd hm (by simp)
    rw [if_pos hca] at hm
    split at hm
    case _ r2 heq =>
      split at hm
      case _ r4 heq2 =>
        split at hm
        case isTrue => exact absurd hm (by simp)
        case isFalse hne =>
          split at hm
          case _ bang r5 heq3 =>
            rcases hms : mkSubject? r5 with _ | subj
            · rw [hms] at hm; exact absurd hm (by simp)
            · rw [hms] at hm
              simp only [Option.map_some', Option.some.injEq] at hm
              rcases mkSubject?_eq_some hms with ⟨hr5ne, hr5lt, hsubj⟩
              rcases afterBangColon_eq_some heq3 with ⟨hb, hr4⟩ | ⟨hb, hr4⟩
              · refine ⟨c, rest.takeWhile isTypeChar, r2.takeWhile (fun d => d ≠ ')'),
                  ['!'], r5, ?_, hca, ?_, ?_, ?_, ?_, ?_, ?_, ?_, ?_, ?_⟩
                · have h1 : rest = rest.takeWhile isTypeChar ++ ('(' :: r2) := by
                    conv_lhs => rw [← List.takeWhile_append_dropWhile isTypeChar rest]
                    rw [heq]
                  have h2 : r2 = r2.takeWhile (fun d => d ≠ ')') ++ (')' :: r4) := by
                    conv_lhs => rw [← List.takeWhile_append_dropWhile (fun d => d ≠ ')') r2]
                    rw [heq2]
                  refine congrArg (List.cons c) ?_
                  conv_lhs => rw [h1]
                  conv_lhs => rw [h2]
                  rw [hr4]
                  simp [List.append_assoc]
                · intro d hd; exact List.mem_takeWhile_imp hd
                · simpa using hne
                · intro e he; simpa using List.mem_takeWhile_imp he
                · rw [← hm]; simp [hb]
                · exact hr5ne
                · exact hr5lt
                · rw [← hm]
                · rw [← hm]
                · rw [← hm]; exact hsubj
              · refine ⟨c, rest.takeWhile isTypeChar, r2.takeWhile (fun d => d ≠ ')'),
                  [], r5, ?_, hca, ?_, ?_, ?_, ?_, ?_, ?_, ?_, ?_, ?_⟩
                · have h1 : rest = rest.takeWhile isTypeChar ++ ('(' :: r2) := by
                    conv_lhs => rw [← List.takeWhile_append_dropWhile isTypeChar rest]
                    rw [heq]
                  have h2 : r2 = r2.takeWhile (fun d => d ≠ ')') ++ (')' :: r4) := by
                    conv_lhs => rw [← List.takeWhile_append_dropWhile (fun d => d ≠ ')') r2]
                    rw [heq2]
                  refine congrArg (List.cons c) ?_
                  conv_lhs => rw [h1]
                  conv_lhs => rw [h2]
                  rw [hr4]
                  simp [List.append_assoc]
                · intro d hd; exact List.mem_takeWhile_imp hd
                · simpa using hne
                · intro e he; simpa using List.mem_takeWhile_imp he
                · rw [← hm]; simp [hb]
                · exact hr5ne
                · exact hr5lt
                · rw [← hm]
                · rw [← hm]
                · rw [← hm]; exact hsubj
          case _ => exact absurd hm (by simp)
      case _ heq2 => exact absurd hm (by simp)
    case _ heq => exact absurd hm (by simp)

theorem matchNoScope_eq_some {t : List Char} {h : ParsedCommitHeader}
    (hm : matchNoScope t = some h) :
    ∃ c cs bangChars subjRaw,
      t = c :: (cs ++ (bangChars ++ (':' :: (' ' :: subjRaw)))) ∧
      isLowerAlpha c = true ∧ (∀ d ∈ cs, isTypeChar d = true) ∧
      bangChars = (if h.breaking then ['!'] else []) ∧
      subjRaw ≠ [] ∧ (∀ e ∈ subjRaw, isLineTerm e = false) ∧
      h.type = c :: cs ∧ h.scope = none ∧ h.subject = trimChars subjRaw := by
  rcases t with _ | ⟨c, rest⟩
  · exact absurd hm (by simp [matchNoScope])
  · simp only [matchNoScope] at hm
    by_cases hca : isLowerAlpha c = true
    case neg => rw [if_neg hca] at hm; exact absurd hm (by simp)
    rw [if_pos hca] at hm
    split at hm
    case _ bang r2 heq =>
      rcases hms : mkSubject? r2 with _ | subj
      · rw [hms] at hm; exact absurd hm (by simp)
      · rw [hms] at hm
        simp only [Option.map_some', Option.some.injEq] at hm
        rcases mkSubject?_eq_some hms with ⟨hr2ne, hr2lt, hsubj⟩
        have h1 : rest = rest.takeWhile isTypeChar ++ rest.dropWhile isTypeChar :=
          (List.takeWhile_append_dropWhile isTypeChar rest).symm
        rcases afterBangColon_eq_some heq with ⟨hb, hr⟩ | ⟨hb, hr⟩
        · refine ⟨c, rest.takeWhile isTypeChar, ['!'], r2, ?_, hca, ?_, ?_, hr2ne, hr2lt,
            ?_, ?_, ?_⟩
          · refine congrArg (List.cons c) ?_
            conv_lhs => rw [h1]
            rw [hr]
            simp [List.append_assoc]
          · intro d hd; exact List.mem_takeWhile_imp hd
          · rw [← hm]; simp [hb]
          · rw [← hm]
          · rw [← hm]
          · rw [← hm]; exact hsubj
        · refine ⟨c, rest.takeWhile isTypeChar, [], r2, ?_, hca, ?_, ?_, hr2ne, hr2lt,
            ?_, ?_, ?_⟩
          · refine congrArg (List.cons c) ?_
            conv_lhs => rw [h1]
            rw [hr]
            simp [List.append_assoc]
          · intro d hd; exact List.mem_takeWhile_imp hd
          · rw [← hm]; simp [hb]
          · rw [← hm]
          · rw [← hm]
          · rw [← hm]; exact hsubj
    case _ heq => exact absurd hm (by simp)

/-- The header text `type(scope)!?: subject` reassembled from parsed fields,
exactly as the repair path of core.ts builds `newHeader`. -/
def formatHeader (ty : List Char) (scope : Option (List Char)) (breaking : Bool)
    (subject : List Char) : List Char :=
  ty ++ (match scope with | some s => '(' :: (s ++ [')']) | none => []) ++
    (if breaking then ['!'] else []) ++ (':' :: ' ' :: subject)

theorem formatHeader_normal_scope (c : Char) (cs s : List Char) (breaking : Bool)
    (subj : List Char) :
    formatHeader (c :: cs) (some s) breaking subj =
      c :: (cs ++ ('(' :: (s ++ (')' :: ((if breaking then ['!'] else []) ++
        (':' :: (' ' :: subj))))))) := by
  simp [formatHeader, List.append_assoc]

theorem formatHeader_normal_noscope (c : Char) (cs : List Char) (breaking : Bool)
    (subj : List Char) :
    formatHeader (c :: cs) none breaking subj =
      c :: (cs ++ ((if breaking then ['!'] else []) ++ (':' :: (' ' :: subj)))) := by
  simp [formatHeader, List.append_assoc]

theorem lastNotWS_formatHeader {ty : List Char} {scope : Option (List Char)} {breaking : Bool}
    {subj : List Char} (hsubj : subj ≠ []) (hlast : lastNotWS subj) :
    lastNotWS (formatHeader ty scope breaking subj) := by
  have heq : formatHeader ty scope breaking subj =
      (ty ++ (match scope with | some s => '(' :: (s ++ [')']) | none => []) ++
        (if breaking then ['!'] else []) ++ [':', ' ']) ++ subj := by
    simp [formatHeader, List.append_assoc]
  rw [heq]
  exact lastNotWS_append hlast hsubj

theorem parseCommitHeader_format {ty : List Char} {scope : Option (List Char)} {breaking : Bool}
    {subj : List Char} (hty : TypeToken ty)
    (hscope : ∀ s, scope = some s → s ≠ [] ∧ ∀ e ∈ s, e ≠ ')')
    (hsubj : subj ≠ []) (hlt : ∀ e ∈ subj, isLineTerm e = false)
    (htr : trimChars subj = subj) :
    parseCommitHeader (formatHeader ty scope breaking subj) =
      some ⟨ty, scope, breaking, subj⟩ := by
  rcases hty with ⟨c, cs, hty', hc, hcs⟩
  subst hty'
  have hhead : ∀ e, (formatHeader (c :: cs) scope breaking subj).head? = some e →
      isJsWS e = false := by
    intro e he
    cases scope <;>
      (first
        | rw [formatHeader_normal_noscope] at he
        | rw [formatHeader_normal_scope] at he) <;>
      (simp only [List.head?_cons, Option.some.injEq] at he
       rw [← he]
       exact not_ws_of_lowerAlpha hc)
  have hlast : lastNotWS (formatHeader (c :: cs) scope breaking subj) :=
    lastNotWS_formatHeader hsubj (htr ▸ lastNotWS_trimChars subj)
  have htrim : trimChars (formatHeader (c :: cs) scope breaking subj) =
      formatHeader (c :: cs) scope breaking subj := trimChars_eq_self hhead hlast
  simp only [parseCommitHeader, htrim]
  cases scope with
  | some s =>
    rcases hscope s rfl with ⟨hsne, hsp⟩
    rw [formatHeader_normal_scope,
      matchWithScope_format hc hcs hsne hsp rfl hsubj hlt, htr]
  | none =>
    rw [formatHeader_normal_noscope, matchWithScope_noscope_none hcs rfl,
      matchNoScope_format hc hcs rfl hsubj hlt, htr]

theorem parseCommitHeader_fields {line : List Char} {h : ParsedCommitHeader}
    (hp : parseCommitHeader line = some h) :
    TypeToken h.type ∧
    (∀ s, h.scope = some s → s ≠ [] ∧ (∀ e ∈ s, e ≠ ')') ∧ (∀ e ∈ s, e ∈ line)) ∧
    h.subject ≠ [] ∧ trimChars h.subject = h.subject ∧
    (∀ e ∈ h.subject, isLineTerm e = false) := by
  have hsub : ∀ (subjRaw : List Char) (A : List Char),
      trimChars line = A ++ subjRaw → subjRaw ≠ [] →
      (∀ e ∈ subjRaw, isLineTerm e = false) →
      trimChars subjRaw ≠ [] ∧ trimChars (trimChars subjRaw) = trimChars subjRaw ∧
        (∀ e ∈ trimChars subjRaw, isLineTerm e = false) := by
    intro subjRaw A hdec hne hlt
    have hlastline : lastNotWS (trimChars line) := lastNotWS_trimChars line
    have hlastsub : lastNotWS subjRaw := lastNotWS_of_append (hdec ▸ hlastline) hne
    rcases hrev : subjRaw.reverse with _ | ⟨e, es⟩
    · exact absurd (by simpa using congrArg List.reverse hrev) hne
    · have hmem : e ∈ subjRaw := by
        have : e ∈ subjRaw.reverse := by rw [hrev]; simp
        simpa using this
      have hews : isJsWS e = false := hlastsub e (by rw [hrev]; rfl)
      exact ⟨trimChars_ne_nil_of_mem hews hmem, trimChars_idem subjRaw,
        fun x hx => hlt x (mem_of_mem_trimChars hx)⟩
  unfold parseCommitHeader at hp
  cases hmw : matchWithScope (trimChars line) with
  | some h' =>
    simp only [hmw, Option.some.injEq] at hp
    subst hp
    rcases matchWithScope_eq_some hmw with
      ⟨c, cs, scope, bangChars, subjRaw, hdec, hca, hcs, hsne, hsp, hbang, hsune, hsult,
        hta, hsc, hsu⟩
    have hA : trimChars line =
        (c :: (cs ++ ('(' :: (scope ++ (')' :: (bangChars ++ [':', ' '])))))) ++ subjRaw := by
      rw [hdec]; simp [List.append_assoc]
    rcases hsub subjRaw _ hA hsune hsult with ⟨hne', hidem', hlt'⟩
    refine ⟨⟨c, cs, hta, hca, hcs⟩, ?_, ?_, ?_, ?_⟩
    · intro s hs
      rw [hsc] at hs
      simp only [Option.some.injEq] at hs
      subst hs
      refine ⟨hsne, hsp, ?_⟩
      intro e he
      apply mem_of_mem_trimChars (s := line)
      rw [hdec]
      simp [he]
    · rw [hsu]; exact hne'
    · rw [hsu]; exact hidem'
    · rw [hsu]; exact hlt'
  | none =>
    simp only [hmw] at hp
    rcases matchNoScope_eq_some hp with
      ⟨c, cs, bangChars, subjRaw, hdec, hca, hcs, hbang, hsune, hsult, hta, hsc, hsu⟩
    have hA : trimChars line = (c :: (cs ++ (bangChars ++ [':', ' ']))) ++ subjRaw := by
      rw [hdec]; simp [List.append_assoc]
    rcases hsub subjRaw _ hA hsune hsult with ⟨hne', hidem', hlt'⟩
    refine ⟨⟨c, cs, hta, hca, hcs⟩, ?_, ?_, ?_, ?_⟩
    · intro s hs
      rw [hsc] at hs
      exact absurd hs (by simp)
    · rw [hsu]; exact hne'
    · rw [hsu]; exact hidem'
    · rw [hsu]; exact hlt'

/-! ### The spec's rule list (§4.2) -/

inductive RuleViolation where
  | invalidHeader
  | typeNotAllowed (t : List Char)
  | scopeMissing
  | scopeNotAllowed (s : List Char)
  | breakingNotAllowed
  | emptySubject
  | subjectTooLong (actual maxLen : Nat)
deriving DecidableEq, Repr

/-- The reason string the source attaches to each violated rule. -/
def violationReason : RuleViolation → List Char
  | .invalidHeader => reasonInvalidHeader
  | .typeNotAllowed t => reasonBadType t
  | .scopeMissing => reasonMissingScope
  | .scopeNotAllowed s => reasonBadScope s
  | .breakingNotAllowed => reasonBreaking
  | .emptySubject => reasonEmptySubject
  | .subjectTooLong a m => reasonTooLong a m

/-- Modelled from the spec (§4.2): the six rules evaluated in the listed order,
short-circuiting on the first violation — 1 header parse; 2 type membership;
3 scope (required and member when `requireScope`, member-when-present
otherwise); 4 breaking marker; 5 non-empty subject; 6 subject length.
Returns the first violated rule, `none` when all six pass. -/
def firstViolatedRule (message : List Char) (allowedTypes allowedScopes : List (List Char))
    (rules : CommitGenRules) : Option RuleViolation :=
  match parseCommitHeader (trimChars ((splitOnNL (replaceCRLF message)).headD [])) with
  | none => some .invalidHeader
  | some h =>
    if !(allowedTypes.contains h.type) then some (.typeNotAllowed h.type)
    else
      let laterRules : Option RuleViolation :=
        if !rules.allowBreakingChange && h.breaking then some .breakingNotAllowed
        else if h.subject.isEmpty then some .emptySubject
        else if h.subject.length > rules.maxSubjectLength then
          some (.subjectTooLong h.subject.length rules.maxSubjectLength)
        else none
      match h.scope with
      | none => if rules.requireScope then some .scopeMissing else laterRules
      | some s =>
        if !(allowedScopes.contains s) then some (.scopeNotAllowed s) else laterRules

theorem laterRules_render (h : ParsedCommitHeader) (r : CommitGenRules) :
    (if !r.allowBreakingChange && h.breaking then ValidationResult.failed reasonBreaking
     else if h.subject.isEmpty then ValidationResult.failed reasonEmptySubject
     else if h.subject.length > r.maxSubjectLength then
       ValidationResult.failed (reasonTooLong h.subject.length r.maxSubjectLength)
     else ValidationResult.ok) =
    (match (if !r.allowBreakingChange && h.breaking then
              some RuleViolation.breakingNotAllowed
            else if h.subject.isEmpty then some RuleViolation.emptySubject
            else if h.subject.length > r.maxSubjectLength then
              some (RuleViolation.subjectTooLong h.subject.length r.maxSubjectLength)
            else none) with
     | none => ValidationResult.ok
     | some v => ValidationResult.failed (violationReason v)) := by
  by_cases h1 : (!r.allowBreakingChange && h.breaking) = true <;>
    by_cases h2 : h.subject.isEmpty = true <;>
    by_cases h3 : h.subject.length > r.maxSubjectLength <;>
    simp [h1, h2, h3, violationReason]

theorem validate_renders_firstViolatedRule (m : List Char) (ts ss : List (List Char))
    (r : CommitGenRules) :
    validateCommitMessage m ts ss r =
      (match firstViolatedRule m ts ss r with
       | none => ValidationResult.ok
       | some v => ValidationResult.failed (violationReason v)) := by
  unfold validateCommitMessage firstViolatedRule
  cases hp : parseCommitHeader (trimChars ((splitOnNL (replaceCRLF m)).headD [])) with
  | none => simp only [hp]; rfl
  | some h =>
    simp only [hp]
    by_cases ht : (ts.contains h.type) = true
    · simp only [ht, Bool.not_true, Bool.false_eq_true, if_false]
      cases hsc : h.scope with
      | none =>
        by_cases hrs : r.requireScope = true
        · simp only [hrs, if_true]; rfl
        · simp only [if_neg hrs]
          exact laterRules_render h r
      | some s =>
        by_cases hss : (ss.contains s) = true
        · simp only [hss, Bool.not_true, Bool.false_eq_true, if_false]
          exact laterRules_render h r
        · have hcond : (!(ss.contains s)) = true := by
            cases hb : ss.contains s
            · rfl
            · exact absurd hb hss
          simp only [hcond, if_true]
          rfl
    · have hcond : (!(ts.contains h.type)) = true := by
        cases hb : ts.contains h.type
        · rfl
        · exact absurd hb ht
      simp only [hcond, if_true]
      rfl

/-! ### Distinctness of reason strings -/

theorem headD_append_left {a : List Char} (h : a ≠ []) (b : List Char) (d : Char) :
    (a ++ b).headD d = a.headD d := by
  cases a with
  | nil => exact absurd rfl h
  | cons x xs => rfl

theorem getD_append_left {a b : List Char} {i : Nat} (h : i < a.length) (d : Char) :
    (a ++ b).getD i d = a.getD i d := by
  simp [List.getD, List.getElem?_append, h]

theorem reasonBadType_ne_emptySubject (t : List Char) :
    reasonBadType t ≠ reasonEmptySubject := by
  intro heq
  have hne1 : (str "Type \"" ++ t) ≠ [] := by
    intro hx
    exact (by decide : str "Type \"" ≠ []) (List.append_eq_nil.mp hx).1
  have h1 : (reasonBadType t).headD ' ' = 'T' := by
    unfold reasonBadType
    rw [headD_append_left hne1, headD_append_left (by decide)]
    decide
  rw [heq] at h1
  exact absurd h1 (by decide)

theorem reasonBadScope_ne_emptySubject (s : List Char) :
    reasonBadScope s ≠ reasonEmptySubject := by
  intro heq
  have hlen7 : (str "Scope \"").length = 7 := by decide
  have hb1 : (1 : Nat) < (str "Scope \"" ++ s).length := by
    rw [List.length_append, hlen7]; omega
  have hb2 : (1 : Nat) < (str "Scope \"").length := by omega
  have h1 : (reasonBadScope s).getD 1 ' ' = 'c' := by
    unfold reasonBadScope
    rw [getD_append_left hb1, getD_append_left hb2]
    decide
  rw [heq] at h1
  exact absurd h1 (by decide)

theorem reasonTooLong_ne_emptySubject (a m : Nat) :
    reasonTooLong a m ≠ reasonEmptySubject := by
  intro heq
  have l1 : (11 : Nat) < (str "Subject is too long (").length := by decide
  have l2 : (11 : Nat) < (str "Subject is too long (" ++ natStr a).length := by
    rw [List.length_append]; omega
  have l3 : (11 : Nat) < (str "Subject is too long (" ++ natStr a ++ str " > ").length := by
    rw [List.length_append]; omega
  have l4 : (11 : Nat) <
      (str "Subject is too long (" ++ natStr a ++ str " > " ++ natStr m).length := by
    rw [List.length_append]; omega
  have h1 : (reasonTooLong a m).getD 11 ' ' = 't' := by
    unfold reasonTooLong
    rw [getD_append_left l4, getD_append_left l3, getD_append_left l2, getD_append_left l1]
    decide
  rw [heq] at h1
  exact absurd h1 (by decide)

theorem laterRules_ne_empty {h : ParsedCommitHeader} {r : CommitGenRules}
    (hie : h.subject.isEmpty = false) :
    (if !r.allowBreakingChange && h.breaking then some RuleViolation.breakingNotAllowed
     else if h.subject.isEmpty then some RuleViolation.emptySubject
     else if h.subject.length > r.maxSubjectLength then
       some (RuleViolation.subjectTooLong h.subject.length r.maxSubjectLength)
     else none) ≠ some RuleViolation.emptySubject := by
  by_cases h1 : (!r.allowBreakingChange && h.breaking) = true <;>
    by_cases h3 : h.subject.length > r.maxSubjectLength <;>
    simp [h1, h3, hie]

theorem firstViolatedRule_ne_empty (m : List Char) (ts ss : List (List Char))
    (r : CommitGenRules) :
    firstViolatedRule m ts ss r ≠ some RuleViolation.emptySubject := by
  intro hv
  unfold firstViolatedRule at hv
  cases hp : parseCommitHeader (trimChars ((splitOnNL (replaceCRLF m)).headD [])) with
  | none => rw [hp] at hv; simp at hv
  | some h =>
    rw [hp] at hv
    rcases parseCommitHeader_fields hp with ⟨_, _, hne, _, _⟩
    have hie : h.subject.isEmpty = false := by simpa using hne
    simp only [] at hv
    split at hv
    · simp at hv
    · split at hv
      · split at hv
        · simp at hv
        · split at hv
          · simp at hv
          · split at hv
            · next hcond => rw [hie] at hcond; exact absurd hcond (by simp)
            · split at hv <;> simp at hv
      · split at hv
        · simp at hv
        · split at hv
          · simp at hv
          · split at hv
            · next hcond => rw [hie] at hcond; exact absurd hcond (by simp)
            · split at hv <;> simp at hv

theorem laterRules_none_iff (h : ParsedCommitHeader) (r : CommitGenRules) :
    ((if !r.allowBreakingChange && h.breaking then some RuleViolation.breakingNotAllowed
      else if h.subject.isEmpty then some RuleViolation.emptySubject
      else if h.subject.length > r.maxSubjectLength then
        some (RuleViolation.subjectTooLong h.subject.length r.maxSubjectLength)
      else none) = none) ↔
    ((h.breaking = true → r.allowBreakingChange = true) ∧ h.subject ≠ [] ∧
      h.subject.length ≤ r.maxSubjectLength) := by
  constructor
  · intro hx
    by_cases hbk : (!r.allowBreakingChange && h.breaking) = true
    · rw [if_pos hbk] at hx; exact absurd hx (by simp)
    · rw [if_neg hbk] at hx
      by_cases hie : h.subject.isEmpty = true
      · rw [if_pos hie] at hx; exact absurd hx (by simp)
      · rw [if_neg hie] at hx
        by_cases hln : h.subject.length > r.maxSubjectLength
        · rw [if_pos hln] at hx; exact absurd hx (by simp)
        · refine ⟨?_, ?_, by omega⟩
          · intro hbr
            cases hab : r.allowBreakingChange
            · exact absurd (by simp [hab, hbr]) hbk
            · rfl
          · intro hx2
            exact hie (by simp [hx2])
  · rintro ⟨h1, h2, h3⟩
    have hbk : (!r.allowBreakingChange && h.breaking) = false := by
      cases hbr : h.breaking
      · simp
      · simp [h1 hbr]
    rw [if_neg (by simp [hbk]), if_neg (by simpa using h2), if_neg (by omega)]

theorem firstViolatedRule_none_iff {m : List Char} {ts ss : List (List Char)}
    {r : CommitGenRules} {h : ParsedCommitHeader}
    (hp : parseCommitHeader (trimChars ((splitOnNL (replaceCRLF m)).headD [])) = some h) :
    firstViolatedRule m ts ss r = none ↔
      (ts.contains h.type = true ∧
       (match h.scope with
        | none => r.requireScope = false
        | some s => ss.contains s = true) ∧
       (h.breaking = true → r.allowBreakingChange = true) ∧
       h.subject ≠ [] ∧ h.subject.length ≤ r.maxSubjectLength) := by
  unfold firstViolatedRule
  rw [hp]
  simp only []
  by_cases ht : (ts.contains h.type) = true
  · have htc : (!(ts.contains h.type)) = true → False := by
      intro hx; rw [ht] at hx; exact absurd hx (by simp)
    rw [if_neg htc]
    rcases hsc : h.scope with _ | s
    · simp only []
      by_cases hrs : r.requireScope = true
      · simp [hrs, ht]
      · have hrs' : r.requireScope = false := by
          cases hb : r.requireScope
          · rfl
          · exact absurd hb hrs
        rw [if_neg hrs, laterRules_none_iff]
        have htm : h.type ∈ ts := by simpa using ht
        simp [htm, hrs']
    · simp only []
      by_cases hss : (ss.contains s) = true
      · have hssc : (!(ss.contains s)) = true → False := by
          intro hx; rw [hss] at hx; exact absurd hx (by simp)
        rw [if_neg hssc, laterRules_none_iff]
        have htm : h.type ∈ ts := by simpa using ht
        have hsm : s ∈ ss := by simpa using hss
        simp [htm, hsm]
      · have hssc : (!(ss.contains s)) = true := by
          cases hb : ss.contains s
          · rfl
          · exact absurd hb hss
        rw [if_pos hssc]
        have hsm : s ∉ ss := fun hmem => hss (by simpa using hmem)
        simp [hsm]
  · have htc : (!(ts.contains h.type)) = true := by
      cases hb : ts.contains h.type
      · rfl
      · exact absurd hb ht
    rw [if_pos htc]
    have htm : h.type ∉ ts := fun hmem => ht (by simpa using hmem)
    simp [htm]

/-- C1: the validator evaluates the six §4.2 rules in the fixed order
(header parse; type membership; scope; breaking marker; non-empty subject;
subject length), returns `Failed` carrying exactly the reason of the first
violated rule only, and returns `Ok` iff all six pass; with `requireScope`
false an unscoped header never fails the scope rule, while a present scope
must be a member of `allowedScopes` regardless of `requireScope`. -/
theorem C1_validate_first_violated_rule (m : List Char) (ts ss : List (List Char))
    (r : CommitGenRules) :
    (validateCommitMessage m ts ss r =
      match firstViolatedRule m ts ss r with
      | none => ValidationResult.ok
      | some v => ValidationResult.failed (violationReason v)) ∧
    (validateCommitMessage m ts ss r = ValidationResult.ok ↔
      firstViolatedRule m ts ss r = none) ∧
    (r.requireScope = false →
      ∀ h, parseCommitHeader (trimChars ((splitOnNL (replaceCRLF m)).headD [])) = some h →
        h.scope = none →
        firstViolatedRule m ts ss r ≠ some RuleViolation.scopeMissing ∧
          ∀ s, firstViolatedRule m ts ss r ≠ some (RuleViolation.scopeNotAllowed s)) ∧
    (∀ h s, parseCommitHeader (trimChars ((splitOnNL (replaceCRLF m)).headD [])) = some h →
      h.scope = some s → ts.contains h.type = true → ss.contains s = false →
      validateCommitMessage m ts ss r = ValidationResult.failed (reasonBadScope s)) := by
  refine ⟨validate_renders_firstViolatedRule m ts ss r, ?_, ?_, ?_⟩
  · rw [validate_renders_firstViolatedRule]
    cases hv : firstViolatedRule m ts ss r <;> simp
  · intro hrs h hp hsc
    unfold firstViolatedRule
    rw [hp]
    simp only [hsc]
    have hrs' : r.requireScope = true → False := by simp [hrs]
    rw [if_neg hrs']
    constructor
    · by_cases h1 : (!(ts.contains h.type)) = true <;>
        by_cases h2 : (!r.allowBreakingChange && h.breaking) = true <;>
        by_cases h3 : h.subject.isEmpty = true <;>
        by_cases h4 : h.subject.length > r.maxSubjectLength <;>
        simp [h1, h2, h3, h4] <;>
        (try (split <;> simp))
    · intro s
      by_cases h1 : (!(ts.contains h.type)) = true <;>
        by_cases h2 : (!r.allowBreakingChange && h.breaking) = true <;>
        by_cases h3 : h.subject.isEmpty = true <;>
        by_cases h4 : h.subject.length > r.maxSubjectLength <;>
        simp [h1, h2, h3, h4] <;>
        (try (split <;> simp))
  · intro h s hp hsc ht hss
    rw [validate_renders_firstViolatedRule]
    unfold firstViolatedRule
    rw [hp]
    simp only [hsc]
    have htc : (!(ts.contains h.type)) = true → False := by
      intro hx; rw [ht] at hx; exact absurd hx (by simp)
    have hssc : (!(ss.contains s)) = true := by rw [hss]; rfl
    rw [if_neg htc, if_pos hssc]
    rfl

/-- Witness for C1 at a concrete input: a present scope outside
`allowedScopes` fails the scope rule even though `requireScope` is false. -/
theorem C1_validate_first_violated_rule_witness :
    validateCommitMessage (str "feat(api): add endpoint") [str "feat"] [str "core"]
      ⟨72, false, true, none⟩ = ValidationResult.failed (reasonBadScope (str "api")) := by
  exact (C1_validate_first_violated_rule (str "feat(api): add endpoint") [str "feat"]
    [str "core"] ⟨72, false, true, none⟩).2.2.2
    ⟨str "feat", some (str "api"), false, str "add endpoint"⟩ (str "api")
    (by decide) rfl (by decide) (by decide)

/-- C10: a successfully parsed header always carries a non-empty subject equal
to its own trim, so the validator's "Subject is empty." failure is unreachable
for every message and rule set. -/
theorem C10_parsed_subject_nonempty :
    (∀ (line : List Char) (h : ParsedCommitHeader), parseCommitHeader line = some h →
      h.subject ≠ [] ∧ trimChars h.subject = h.subject) ∧
    (∀ (m : List Char) (ts ss : List (List Char)) (r : CommitGenRules),
      validateCommitMessage m ts ss r ≠ ValidationResult.failed reasonEmptySubject) := by
  constructor
  · intro line h hp
    rcases parseCommitHeader_fields hp with ⟨_, _, hne, hidem, _⟩
    exact ⟨hne, hidem⟩
  · intro m ts ss r heq
    rw [validate_renders_firstViolatedRule] at heq
    cases hv : firstViolatedRule m ts ss r with
    | none => rw [hv] at heq; exact absurd heq (by simp)
    | some v =>
      rw [hv] at heq
      simp only [ValidationResult.failed.injEq] at heq
      cases v with
      | invalidHeader => exact absurd heq (by decide)
      | typeNotAllowed t =>
        exact reasonBadType_ne_emptySubject t (by simpa [violationReason] using heq)
      | scopeMissing => exact absurd heq (by decide)
      | scopeNotAllowed s =>
        exact reasonBadScope_ne_emptySubject s (by simpa [violationReason] using heq)
      | breakingNotAllowed => exact absurd heq (by decide)
      | emptySubject => exact firstViolatedRule_ne_empty m ts ss r hv
      | subjectTooLong a mm =>
        exact reasonTooLong_ne_emptySubject a mm (by simpa [violationReason] using heq)

/-- Witness for C10 at a concrete input. -/
theorem C10_parsed_subject_nonempty_witness :
    (str "add button" : List Char) ≠ [] ∧
      trimChars (str "add button") = str "add button" :=
  C10_parsed_subject_nonempty.1 (str "feat(ui)!: add button")
    ⟨str "feat", some (str "ui"), true, str "add button"⟩ (by decide)

/-! ### Spec §4.1 grammar -/

/-- Modelled from the spec (§4.1): the trimmed line matches
`type(scope)!?: subject` or `type!?: subject`, producing the given header —
`type` matches `[a-z][a-z0-9-]*`, `scope` is a non-empty run of characters
excluding `)`, an optional `!` marks breaking, and `subject` is the remainder
after `": "` with surrounding whitespace trimmed. -/
def specHeaderGrammar (t : List Char) (h : ParsedCommitHeader) : Prop :=
  (∃ ty scope bang subj,
    TypeToken ty ∧ scope ≠ [] ∧ (∀ e ∈ scope, e ≠ ')') ∧
    ((bang = [] ∧ h.breaking = false) ∨ (bang = ['!'] ∧ h.breaking = true)) ∧
    t = ty ++ ('(' :: (scope ++ (')' :: (bang ++ (':' :: (' ' :: subj)))))) ∧
    h.type = ty ∧ h.scope = some scope ∧ h.subject = trimChars subj) ∨
  (∃ ty bang subj,
    TypeToken ty ∧
    ((bang = [] ∧ h.breaking = false) ∨ (bang = ['!'] ∧ h.breaking = true)) ∧
    t = ty ++ (bang ++ (':' :: (' ' :: subj))) ∧
    h.type = ty ∧ h.scope = none ∧ h.subject = trimChars subj)

theorem parse_imp_grammar {line : List Char} {h : ParsedCommitHeader}
    (hp : parseCommitHeader line = some h) : specHeaderGrammar (trimChars line) h := by
  unfold parseCommitHeader at hp
  cases hmw : matchWithScope (trimChars line) with
  | some h' =>
    simp only [hmw, Option.some.injEq] at hp
    subst hp
    rcases matchWithScope_eq_some hmw with
      ⟨c, cs, scope, bangChars, subjRaw, hdec, hca, hcs, hsne, hsp, hbang, hsune, hsult,
        hta, hsc, hsu⟩
    left
    refine ⟨c :: cs, scope, bangChars, subjRaw, ⟨c, cs, rfl, hca, hcs⟩, hsne, hsp, ?_,
      ?_, hta, hsc, hsu⟩
    · cases hbr : h'.breaking with
      | false => exact .inl ⟨by rw [hbang, hbr]; rfl, rfl⟩
      | true => exact .inr ⟨by rw [hbang, hbr]; rfl, rfl⟩
    · rw [hdec]; rfl
  | none =>
    simp only [hmw] at hp
    rcases matchNoScope_eq_some hp with
      ⟨c, cs, bangChars, subjRaw, hdec, hca, hcs, hbang, hsune, hsult, hta, hsc, hsu⟩
    right
    refine ⟨c :: cs, bangChars, subjRaw, ⟨c, cs, rfl, hca, hcs⟩, ?_, ?_, hta, hsc, hsu⟩
    · cases hbr : h.breaking with
      | false => exact .inl ⟨by rw [hbang, hbr]; rfl, rfl⟩
      | true => exact .inr ⟨by rw [hbang, hbr]; rfl, rfl⟩
    · rw [hdec]; rfl

theorem grammar_imp_parse {line : List Char} {h : ParsedCommitHeader}
    (hlt : ∀ c ∈ line, isLineTerm c = false)
    (hg : specHeaderGrammar (trimChars line) h) : parseCommitHeader line = some h := by
  have hltt : ∀ c ∈ trimChars line, isLineTerm c = false :=
    fun c hc => hlt c (mem_of_mem_trimChars hc)
  rcases hg with
    ⟨ty, scope, bang, subj, hty, hsne, hsp, hbdis, hdec, hta, hsc, hsu⟩ |
    ⟨ty, bang, subj, hty, hbdis, hdec, hta, hsc, hsu⟩
  · rcases hty with ⟨c, cs, hty', hca, hcs⟩
    subst hty'
    have hsubjne : subj ≠ [] := by
      intro hnil
      subst hnil
      have hend : trimChars line =
          ((c :: cs) ++ ('(' :: (scope ++ (')' :: (bang ++ [':']))))) ++ [' '] := by
        rw [hdec]; simp [List.append_assoc]
      have hws := lastNotWS_trimChars line ' ' (by rw [hend]; simp)
      exact absurd hws (by decide)
    have hsubjlt : ∀ e ∈ subj, isLineTerm e = false := by
      intro e he
      exact hltt e (by rw [hdec]; simp [he])
    have hbang : bang = if h.breaking then ['!'] else [] := by
      rcases hbdis with ⟨hb1, hb2⟩ | ⟨hb1, hb2⟩ <;> simp [hb1, hb2]
    unfold parseCommitHeader
    simp only []
    rw [hdec, List.cons_append,
      matchWithScope_format hca hcs hsne hsp hbang hsubjne hsubjlt]
    show some (⟨c :: cs, some scope, h.breaking, trimChars subj⟩ : ParsedCommitHeader) = some h
    rw [← hta, ← hsc, ← hsu]
  · rcases hty with ⟨c, cs, hty', hca, hcs⟩
    subst hty'
    have hsubjne : subj ≠ [] := by
      intro hnil
      subst hnil
      have hend : trimChars line = ((c :: cs) ++ (bang ++ [':'])) ++ [' '] := by
        rw [hdec]; simp [List.append_assoc]
      have hws := lastNotWS_trimChars line ' ' (by rw [hend]; simp)
      exact absurd hws (by decide)
    have hsubjlt : ∀ e ∈ subj, isLineTerm e = false := by
      intro e he
      exact hltt e (by rw [hdec]; simp [he])
    have hbang : bang = if h.breaking then ['!'] else [] := by
      rcases hbdis with ⟨hb1, hb2⟩ | ⟨hb1, hb2⟩ <;> simp [hb1, hb2]
    unfold parseCommitHeader
    simp only []
    rw [hdec, List.cons_append, matchWithScope_noscope_none hcs hbang,
      matchNoScope_format hca hcs hbang hsubjne hsubjlt]
    show some (⟨c :: cs, none, h.breaking, trimChars subj⟩ : ParsedCommitHeader) = some h
    rw [← hta, ← hsc, ← hsu]

/-- C2: `parseCommitHeader` recognizes exactly the §4.1 grammar
`type(scope)!?: subject` / `type!?: subject` on the trimmed input line,
returning the structured header on a match and `none` otherwise; in
particular `parseCommitHeader "feat(ui)!: add button"` yields type `feat`,
scope `ui`, breaking `true`, subject `add button`. -/
theorem C2_parse_recognizes_grammar :
    (∀ (line : List Char) (h : ParsedCommitHeader), (∀ c ∈ line, isLineTerm c = false) →
      (parseCommitHeader line = some h ↔ specHeaderGrammar (trimChars line) h)) ∧
    parseCommitHeader (str "feat(ui)!: add button") =
      some ⟨str "feat", some (str "ui"), true, str "add button"⟩ := by
  constructor
  · intro line h hlt
    exact ⟨parse_imp_grammar, grammar_imp_parse hlt⟩
  · decide

/-- Witness for C2 at a concrete line: the grammar equivalence applied to
`"chore: update deps"`. -/
theorem C2_parse_recognizes_grammar_witness :
    parseCommitHeader (str "chore: update deps") =
      some ⟨str "chore", none, false, str "update deps"⟩ ↔
    specHeaderGrammar (trimChars (str "chore: update deps"))
      ⟨str "chore", none, false, str "update deps"⟩ :=
  C2_parse_recognizes_grammar.1 (str "chore: update deps")
    ⟨str "chore", none, false, str "update deps"⟩ (by decide)

/-- C7 counterexample: the line `"feat(ui):  add"` (two spaces after the
colon) matches the §4.1 grammar — its subject remainder is `" add"`, trimmed
to `"add"` — and `parseCommitHeader` parses it, but reformatting the resulting
fields as `type(scope)!?: subject` yields `"feat(ui): add"`, which is not
byte-identical to the original line. -/
theorem C7_roundtrip_counterexample :
    specHeaderGrammar (trimChars (str "feat(ui):  add"))
      ⟨str "feat", some (str "ui"), false, str "add"⟩ ∧
    parseCommitHeader (str "feat(ui):  add") =
      some ⟨str "feat", some (str "ui"), false, str "add"⟩ ∧
    formatHeader (str "feat") (some (str "ui")) false (str "add") ≠
      str "feat(ui):  add" := by
  refine ⟨?_, by decide, by decide⟩
  left
  exact ⟨str "feat", str "ui", [], str " add",
    ⟨'f', ['e', 'a', 't'], by decide, by decide, by decide⟩,
    by decide, by decide, .inl ⟨rfl, rfl⟩, by decide, rfl, rfl, by decide⟩

/-- C7 amended: for every header line matching the §4.1 grammar whose subject
remainder carries no surrounding whitespace (it equals its own trim), parsing
the line with `parseCommitHeader` and reformatting the resulting fields as
`type(scope)!?: subject` reproduces the original line byte-identically.  Such
lines are exactly the values of `formatHeader` on well-formed fields. -/
theorem C7_roundtrip_amended (ty : List Char) (scope : Option (List Char)) (breaking : Bool)
    (subj : List Char) (hty : TypeToken ty)
    (hscope : ∀ s, scope = some s → s ≠ [] ∧ ∀ e ∈ s, e ≠ ')')
    (hsubj : subj ≠ []) (hlt : ∀ e ∈ subj, isLineTerm e = false)
    (htr : trimChars subj = subj) :
    specHeaderGrammar (formatHeader ty scope breaking subj)
      ⟨ty, scope, breaking, subj⟩ ∧
    parseCommitHeader (formatHeader ty scope breaking subj) =
      some ⟨ty, scope, breaking, subj⟩ ∧
    ∀ h', parseCommitHeader (formatHeader ty scope breaking subj) = some h' →
      formatHeader h'.type h'.scope h'.breaking h'.subject =
        formatHeader ty scope breaking subj := by
  have hparse := @parseCommitHeader_format ty scope breaking subj hty hscope hsubj hlt htr
  refine ⟨?_, hparse, ?_⟩
  · cases scope with
    | some s =>
      rcases hscope s rfl with ⟨hsne, hsp⟩
      left
      refine ⟨ty, s, (if breaking then ['!'] else []), subj, hty, hsne, hsp, ?_, ?_,
        rfl, rfl, htr.symm⟩
      · cases breaking
        · exact .inl ⟨by simp, rfl⟩
        · exact .inr ⟨by simp, rfl⟩
      · simp [formatHeader, List.append_assoc]
    | none =>
      right
      refine ⟨ty, (if breaking then ['!'] else []), subj, hty, ?_, ?_, rfl, rfl, htr.symm⟩
      · cases breaking
        · exact .inl ⟨by simp, rfl⟩
        · exact .inr ⟨by simp, rfl⟩
      · simp [formatHeader, List.append_assoc]
  · intro h' hp'
    rw [hparse] at hp'
    simp only [Option.some.injEq] at hp'
    rw [← hp']

/-- Witness for C7's amended theorem at a concrete header line. -/
theorem C7_roundtrip_amended_witness :
    parseCommitHeader (formatHeader (str "feat") (some (str "ui")) true (str "add button")) =
      some ⟨str "feat", some (str "ui"), true, str "add button"⟩ :=
  (C7_roundtrip_amended (str "feat") (some (str "ui")) true (str "add button")
    ⟨'f', ['e', 'a', 't'], by decide, by decide, by decide⟩
    (fun s hs => by
      simp only [Option.some.injEq] at hs
      subst hs
      exact ⟨by decide, by decide⟩)
    (by decide) (by decide) (by decide)).2.1

/-! ### Repair lemmas -/

theorem validate_ok_subject_le {m : List Char} {ts ss : List (List Char)} {r : CommitGenRules}
    {h : ParsedCommitHeader}
    (hp : parseCommitHeader (trimChars ((splitOnNL (replaceCRLF m)).headD [])) = some h)
    (hok : validateCommitMessage m ts ss r = ValidationResult.ok) :
    h.subject.length ≤ r.maxSubjectLength := by
  have hnone : firstViolatedRule m ts ss r = none := by
    rw [validate_renders_firstViolatedRule] at hok
    cases hv : firstViolatedRule m ts ss r with
    | none => rfl
    | some v => rw [hv] at hok; exact absurd hok (by simp)
  exact ((firstViolatedRule_none_iff hp).mp hnone).2.2.2.2

theorem tryRepair_unchanged_of_ok {m : List Char} {ts ss : List (List Char)} {r : CommitGenRules}
    (hok : validateCommitMessage m ts ss r = ValidationResult.ok) :
    tryRepairSubjectLengthOnly m ts ss r = m := by
  unfold tryRepairSubjectLengthOnly
  rw [hok]

theorem tryRepair_unchanged_of_noparse {m : List Char} {ts ss : List (List Char)}
    {r : CommitGenRules}
    (hp : parseCommitHeader (trimChars ((splitOnNL m).headD [])) = none) :
    tryRepairSubjectLengthOnly m ts ss r = m := by
  unfold tryRepairSubjectLengthOnly
  cases hv : validateCommitMessage m ts ss r with
  | ok => rfl
  | failed reason => simp only [hp]

theorem tryRepair_unchanged_of_short {m : List Char} {ts ss : List (List Char)}
    {r : CommitGenRules} {h : ParsedCommitHeader}
    (hp : parseCommitHeader (trimChars ((splitOnNL m).headD [])) = some h)
    (hlen : h.subject.length ≤ r.maxSubjectLength) :
    tryRepairSubjectLengthOnly m ts ss r = m := by
  unfold tryRepairSubjectLengthOnly
  cases hv : validateCommitMessage m ts ss r with
  | ok => rfl
  | failed reason =>
    simp only [hp]
    rw [if_pos hlen]

theorem tryRepair_rewrite {m : List Char} {ts ss : List (List Char)} {r : CommitGenRules}
    {h : ParsedCommitHeader}
    (hp : parseCommitHeader (trimChars ((splitOnNL m).headD [])) = some h)
    (hlen : r.maxSubjectLength < h.subject.length) :
    tryRepairSubjectLengthOnly m ts ss r =
      (if (trimRight (joinNL ((splitOnNL m).drop 1))).isEmpty
       then formatHeader h.type h.scope h.breaking (clampSubject h.subject r.maxSubjectLength)
       else
         formatHeader h.type h.scope h.breaking (clampSubject h.subject r.maxSubjectLength) ++
           '\n' :: trimRight (joinNL ((splitOnNL m).drop 1))) := by
  have hvf : validateCommitMessage m ts ss r ≠ ValidationResult.ok := by
    intro hok
    have hp' : parseCommitHeader (trimChars ((splitOnNL (replaceCRLF m)).headD [])) = some h := by
      rw [validate_headerLine_eq]; exact hp
    exact absurd (validate_ok_subject_le hp' hok) (by omega)
  cases hv : validateCommitMessage m ts ss r with
  | ok => exact absurd hv hvf
  | failed reason =>
    unfold tryRepairSubjectLengthOnly
    rw [hv]
    simp only [hp]
    rw [if_neg (by omega)]
    by_cases hre : (trimRight (joinNL ((splitOnNL m).drop 1))).isEmpty = true
    · rw [if_pos hre, if_pos hre]
      rfl
    · rw [if_neg hre, if_neg hre]
      have hrne : trimRight (joinNL ((splitOnNL m).drop 1)) ≠ [] := by
        intro hx; rw [hx] at hre; exact hre rfl
      have hlast : lastNotWS
          (formatHeader h.type h.scope h.breaking
              (clampSubject h.subject r.maxSubjectLength) ++
            '\n' :: trimRight (joinNL ((splitOnNL m).drop 1))) := by
        have heq : formatHeader h.type h.scope h.breaking
              (clampSubject h.subject r.maxSubjectLength) ++
            '\n' :: trimRight (joinNL ((splitOnNL m).drop 1)) =
            (formatHeader h.type h.scope h.breaking
                (clampSubject h.subject r.maxSubjectLength) ++ ['\n']) ++
              trimRight (joinNL ((splitOnNL m).drop 1)) := by
          simp
        rw [heq]
        exact lastNotWS_append (lastNotWS_trimRight _) hrne
      exact trimRight_eq_self hlast

/-! ### Parsing the repaired header -/

theorem parseCommitHeader_trimChars (x : List Char) :
    parseCommitHeader (trimChars x) = parseCommitHeader x := by
  unfold parseCommitHeader
  rw [trimChars_idem]

theorem afterBangColon_one : afterBangColon [':'] = none := rfl

theorem afterBangColon_head_ne {c : Char} (h1 : c ≠ '!') (h2 : c ≠ ':') (rest : List Char) :
    afterBangColon (c :: rest) = none := by
  unfold afterBangColon
  split <;> simp_all

theorem afterBangColon_bang_colon {bp : List Char} {breaking : Bool}
    (hb : bp = if breaking then ['!'] else []) : afterBangColon (bp ++ [':']) = none := by
  cases breaking <;> simp at hb <;> subst hb <;> rfl

theorem lastNotWS_singleton {c : Char} (hc : isJsWS c = false) : lastNotWS [c] := by
  intro e he
  simp only [List.reverse_cons, List.reverse_nil, List.nil_append, List.head?_cons,
    Option.some.injEq] at he
  rw [← he]
  exact hc

theorem matchWithScope_colon_end {c : Char} {cs s tail : List Char}
    (hcs : ∀ d ∈ cs, isTypeChar d = true)
    (hsp : ∀ e ∈ s, e ≠ ')')
    (habc : afterBangColon tail = none) :
    matchWithScope (c :: (cs ++ ('(' :: (s ++ (')' :: tail))))) = none := by
  have hdrop : (cs ++ ('(' :: (s ++ (')' :: tail)))).dropWhile isTypeChar
      = '(' :: (s ++ (')' :: tail)) := dropWhile_append_cons hcs (by decide) _
  have hsp' : ∀ e ∈ s, (fun d => decide (d ≠ ')')) e = true := by
    intro e he; simp [hsp e he]
  have hdrop2 : (s ++ (')' :: tail)).dropWhile (fun d => decide (d ≠ ')'))
      = ')' :: tail := @dropWhile_append_cons _ _ hsp' ')' (by decide) _
  simp only [matchWithScope, hdrop, hdrop2, habc]
  split
  · split <;> rfl
  · rfl

theorem matchWithScope_tail_not_paren {c x : Char} {cs xs : List Char}
    (hcs : ∀ d ∈ cs, isTypeChar d = true) (hx : isTypeChar x = false) (hxp : x ≠ '(') :
    matchWithScope (c :: (cs ++ (x :: xs))) = none := by
  have hdrop : (cs ++ (x :: xs)).dropWhile isTypeChar = x :: xs :=
    dropWhile_append_cons hcs hx _
  simp only [matchWithScope, hdrop]
  split
  · split <;> simp_all
  · rfl

theorem matchNoScope_tail_none {c x : Char} {cs xs : List Char}
    (hcs : ∀ d ∈ cs, isTypeChar d = true) (hx : isTypeChar x = false)
    (habc : afterBangColon (x :: xs) = none) :
    matchNoScope (c :: (cs ++ (x :: xs))) = none := by
  have hdrop : (cs ++ (x :: xs)).dropWhile isTypeChar = x :: xs :=
    dropWhile_append_cons hcs hx _
  simp only [matchNoScope, hdrop, habc]
  split <;> rfl

theorem parseCommitHeader_format_empty {ty : List Char} {scope : Option (List Char)}
    {breaking : Bool} (hty : TypeToken ty)
    (hscope : ∀ s, scope = some s → s ≠ [] ∧ ∀ e ∈ s, e ≠ ')') :
    parseCommitHeader (formatHeader ty scope breaking []) = none := by
  rcases hty with ⟨c, cs, hty', hc, hcs⟩
  subst hty'
  cases scope with
  | some s =>
    rcases hscope s rfl with ⟨hsne, hsp⟩
    have hfmt : formatHeader (c :: cs) (some s) breaking [] =
        (c :: (cs ++ ('(' :: (s ++ (')' :: ((if breaking then ['!'] else []) ++ [':'])))))) ++
          [' '] := by
      simp [formatHeader, List.append_assoc]
    have hlast : lastNotWS
        (c :: (cs ++ ('(' :: (s ++ (')' :: ((if breaking then ['!'] else []) ++ [':'])))))) := by
      have heq : c :: (cs ++ ('(' :: (s ++ (')' :: ((if breaking then ['!'] else []) ++
          [':']))))) =
          (c :: (cs ++ ('(' :: (s ++ (')' :: (if breaking then ['!'] else [])))))) ++ [':'] := by
        simp
      rw [heq]
      exact lastNotWS_append (lastNotWS_singleton (by decide)) (by simp)
    have htrim : trimChars ((c :: (cs ++ ('(' :: (s ++ (')' ::
        ((if breaking then ['!'] else []) ++ [':'])))))) ++ [' ']) =
        c :: (cs ++ ('(' :: (s ++ (')' :: ((if breaking then ['!'] else []) ++ [':']))))) := by
      rw [trimChars_append_ws (by decide)]
      apply trimChars_eq_self
      · intro e he
        simp only [List.head?_cons, Option.some.injEq] at he
        rw [← he]
        exact not_ws_of_lowerAlpha hc
      · exact hlast
    rw [hfmt]
    simp only [parseCommitHeader, htrim]
    have h1 := @matchWithScope_colon_end c cs s ((if breaking then ['!'] else []) ++ [':'])
      hcs hsp (@afterBangColon_bang_colon (if breaking then ['!'] else []) breaking rfl)
    have h2 := @matchNoScope_tail_none c '('
      cs (s ++ (')' :: ((if breaking then ['!'] else []) ++ [':']))) hcs (by decide)
      (afterBangColon_head_ne (by decide) (by decide) _)
    rw [h1]
    exact h2
  | none =>
    cases breaking with
    | false =>
      have hfmt : formatHeader (c :: cs) none false [] = (c :: (cs ++ (':' :: []))) ++ [' '] := by
        simp [formatHeader]
      have htrim : trimChars ((c :: (cs ++ (':' :: []))) ++ [' ']) =
          c :: (cs ++ (':' :: [])) := by
        rw [trimChars_append_ws (by decide)]
        apply trimChars_eq_self
        · intro e he
          simp only [List.head?_cons, Option.some.injEq] at he
          rw [← he]
          exact not_ws_of_lowerAlpha hc
        · have heq : c :: (cs ++ (':' :: [])) = (c :: cs) ++ [':'] := by simp
          rw [heq]
          exact lastNotWS_append (lastNotWS_singleton (by decide)) (by simp)
      rw [hfmt]
      simp only [parseCommitHeader, htrim]
      have h1 := @matchWithScope_tail_not_paren c ':' cs [] hcs (by decide) (by decide)
      have h2 := @matchNoScope_tail_none c ':' cs [] hcs (by decide) afterBangColon_one
      rw [h1]
      exact h2
    | true =>
      have hfmt : formatHeader (c :: cs) none true [] =
          (c :: (cs ++ ('!' :: [':']))) ++ [' '] := by
        simp [formatHeader]
      have htrim : trimChars ((c :: (cs ++ ('!' :: [':']))) ++ [' ']) =
          c :: (cs ++ ('!' :: [':'])) := by
        rw [trimChars_append_ws (by decide)]
        apply trimChars_eq_self
        · intro e he
          simp only [List.head?_cons, Option.some.injEq] at he
          rw [← he]
          exact not_ws_of_lowerAlpha hc
        · have heq : c :: (cs ++ ('!' :: [':'])) = (c :: (cs ++ ['!'])) ++ [':'] := by simp
          rw [heq]
          exact lastNotWS_append (lastNotWS_singleton (by decide)) (by simp)
      rw [hfmt]
      simp only [parseCommitHeader, htrim]
      have h1 := @matchWithScope_tail_not_paren c '!' cs [':'] hcs (by decide) (by decide)
      have h2 := @matchNoScope_tail_none c '!' cs [':'] hcs (by decide) rfl
      rw [h1]
      exact h2

theorem isTypeChar_of_lower {c : Char} (h : isLowerAlpha c = true) : isTypeChar c = true := by
  simp [isTypeChar, h]

theorem ne_nl_of_typeChar {c : Char} (h : isTypeChar c = true) : c ≠ '\n' := by
  intro he
  subst he
  exact absurd h (by decide)

theorem ne_nl_of_not_lineTerm {c : Char} (h : isLineTerm c = false) : c ≠ '\n' := by
  intro he
  subst he
  exact absurd h (by decide)

theorem mem_headLine_ne_nl {m : List Char} {e : Char}
    (he : e ∈ trimChars ((splitOnNL m).headD [])) : e ≠ '\n' := by
  have h1 : e ∈ (splitOnNL m).headD [] := mem_of_mem_trimChars he
  rw [headD_splitOnNL] at h1
  have h2 := List.mem_takeWhile_imp h1
  simpa using h2

theorem formatHeader_no_nl {c : Char} {cs : List Char} {scope : Option (List Char)}
    {breaking : Bool} {subj : List Char}
    (hc : isLowerAlpha c = true) (hcs : ∀ d ∈ cs, isTypeChar d = true)
    (hscope : ∀ s, scope = some s → ∀ e ∈ s, e ≠ '\n')
    (hsubj : ∀ e ∈ subj, e ≠ '\n') :
    ∀ e ∈ formatHeader (c :: cs) scope breaking subj, e ≠ '\n' := by
  intro e he
  cases scope with
  | some s =>
    rw [formatHeader_normal_scope] at he
    cases breaking with
    | false =>
      simp only [if_neg Bool.false_ne_true, List.nil_append, List.mem_cons,
        List.mem_append] at he
      rcases he with rfl | hm | rfl | hm | rfl | rfl | rfl | hm <;>
        first
          | exact ne_nl_of_typeChar (isTypeChar_of_lower hc)
          | exact ne_nl_of_typeChar (hcs _ hm)
          | decide
          | exact hscope s rfl _ hm
          | exact hsubj _ hm
    | true =>
      simp only [eq_self_iff_true, if_true, List.singleton_append, List.mem_cons,
        List.mem_append] at he
      rcases he with rfl | hm | rfl | hm | rfl | rfl | rfl | rfl | hm <;>
        first
          | exact ne_nl_of_typeChar (isTypeChar_of_lower hc)
          | exact ne_nl_of_typeChar (hcs _ hm)
          | decide
          | exact hscope s rfl _ hm
          | exact hsubj _ hm
  | none =>
    rw [formatHeader_normal_noscope] at he
    cases breaking with
    | false =>
      simp only [if_neg Bool.false_ne_true, List.nil_append, List.mem_cons,
        List.mem_append] at he
      rcases he with rfl | hm | rfl | rfl | hm <;>
        first
          | exact ne_nl_of_typeChar (isTypeChar_of_lower hc)
          | exact ne_nl_of_typeChar (hcs _ hm)
          | decide
          | exact hsubj _ hm
    | true =>
      simp only [eq_self_iff_true, if_true, List.singleton_append, List.mem_cons,
        List.mem_append] at he
      rcases he with rfl | hm | rfl | rfl | rfl | hm <;>
        first
          | exact ne_nl_of_typeChar (isTypeChar_of_lower hc)
          | exact ne_nl_of_typeChar (hcs _ hm)
          | decide
          | exact hsubj _ hm

theorem tryRepair_header_parse {m : List Char} {ts ss : List (List Char)} {r : CommitGenRules}
    {h : ParsedCommitHeader}
    (hp : parseCommitHeader (trimChars ((splitOnNL m).headD [])) = some h)
    (hlen : r.maxSubjectLength < h.subject.length) :
    parseCommitHeader
        (trimChars ((splitOnNL (tryRepairSubjectLengthOnly m ts ss r)).headD [])) =
      (if clampSubject h.subject r.maxSubjectLength = []
       then none
       else some ⟨h.type, h.scope, h.breaking, clampSubject h.subject r.maxSubjectLength⟩) := by
  obtain ⟨hty, hsc, hsune, htr, hlt⟩ := parseCommitHeader_fields hp
  have hscwf : ∀ s, h.scope = some s → s ≠ [] ∧ ∀ e ∈ s, e ≠ ')' :=
    fun s hs => ⟨(hsc s hs).1, (hsc s hs).2.1⟩
  have hscnl : ∀ s, h.scope = some s → ∀ e ∈ s, e ≠ '\n' :=
    fun s hs e hes => mem_headLine_ne_nl ((hsc s hs).2.2 e hes)
  obtain ⟨c, cs, htyeq, hc, hcs⟩ := hty
  have hnonl : ∀ e ∈ formatHeader h.type h.scope h.breaking
      (clampSubject h.subject r.maxSubjectLength), e ≠ '\n' := by
    rw [htyeq]
    exact formatHeader_no_nl hc hcs hscnl
      (fun e hem => ne_nl_of_not_lineTerm (not_lineTerm_of_mem_clampSubject hem))
  have hhead : (splitOnNL (tryRepairSubjectLengthOnly m ts ss r)).headD [] =
      formatHeader h.type h.scope h.breaking (clampSubject h.subject r.maxSubjectLength) := by
    rw [tryRepair_rewrite hp hlen]
    by_cases hre : (trimRight (joinNL ((splitOnNL m).drop 1))).isEmpty = true
    · rw [if_pos hre, splitOnNL_no_nl hnonl]
      rfl
    · rw [if_neg hre, splitOnNL_append hnonl]
      rfl
  rw [hhead, parseCommitHeader_trimChars]
  by_cases hcl : clampSubject h.subject r.maxSubjectLength = []
  · rw [if_pos hcl, hcl]
    exact parseCommitHeader_format_empty ⟨c, cs, htyeq, hc, hcs⟩ hscwf
  · rw [if_neg hcl]
    exact parseCommitHeader_format ⟨c, cs, htyeq, hc, hcs⟩ hscwf hcl
      (fun e hem => not_lineTerm_of_mem_clampSubject hem) (trimChars_clampSubject _ _)

theorem trimCollapse_ne_nil {subj : List Char} (hne : subj ≠ [])
    (htr : trimChars subj = subj) : trimChars (collapseWS subj) ≠ [] := by
  rcases hs : subj with _ | ⟨c, rest⟩
  · exact absurd hs hne
  · have hc : isJsWS c = false := by
      apply head_notWS_trimChars subj
      rw [htr, hs]
      rfl
    have hcol : collapseWS (c :: rest) = c :: collapseWSAux false rest := by
      simp [collapseWS, collapseWSAux, hc]
    rw [hcol]
    exact trimChars_ne_nil_of_mem hc (List.mem_cons_self c _)

theorem clampSubject_of_parsed_ne_nil {subj : List Char} {maxLen : Nat}
    (hne : subj ≠ []) (htr : trimChars subj = subj) (hm : 1 ≤ maxLen) :
    clampSubject subj maxLen ≠ [] :=
  clampSubject_ne_nil (trimCollapse_ne_nil hne htr) hm

theorem validate_ok_of {m : List Char} {ts ss : List (List Char)} {r : CommitGenRules}
    {h : ParsedCommitHeader}
    (hp : parseCommitHeader (trimChars ((splitOnNL (replaceCRLF m)).headD [])) = some h)
    (hty : ts.contains h.type = true)
    (hsc : match h.scope with
           | none => r.requireScope = false
           | some s => ss.contains s = true)
    (hbr : h.breaking = true → r.allowBreakingChange = true)
    (hsune : h.subject ≠ [])
    (hlen : h.subject.length ≤ r.maxSubjectLength) :
    validateCommitMessage m ts ss r = ValidationResult.ok := by
  rw [validate_renders_firstViolatedRule]
  have hnone : firstViolatedRule m ts ss r = none :=
    (firstViolatedRule_none_iff hp).mpr ⟨hty, hsc, hbr, hsune, hlen⟩
  rw [hnone]

theorem validate_too_long {m : List Char} {ts ss : List (List Char)} {r : CommitGenRules}
    {h : ParsedCommitHeader}
    (hp : parseCommitHeader (trimChars ((splitOnNL (replaceCRLF m)).headD [])) = some h)
    (hty : ts.contains h.type = true)
    (hsc : match h.scope with
           | none => r.requireScope = false
           | some s => ss.contains s = true)
    (hbr : h.breaking = true → r.allowBreakingChange = true)
    (hlen : r.maxSubjectLength < h.subject.length) :
    validateCommitMessage m ts ss r =
      ValidationResult.failed (reasonTooLong h.subject.length r.maxSubjectLength) := by
  obtain ⟨_, _, hsune, _, _⟩ := parseCommitHeader_fields hp
  unfold validateCommitMessage
  simp only [hp]
  have hty' : (!(ts.contains h.type)) = true → False := by
    rw [hty]; simp
  rw [if_neg hty']
  have habr : (!r.allowBreakingChange && h.breaking) = true → False := by
    intro hx
    cases hb : h.breaking
    · rw [hb] at hx; simp at hx
    · rw [hbr hb, hb] at hx; simp at hx
  have hse : h.subject.isEmpty = true → False := by
    intro hx
    exact hsune (by simpa using hx)
  rcases hscc : h.scope with _ | s
  · rw [hscc] at hsc
    simp only []
    have hreq : r.requireScope = true → False := by
      rw [hsc]; simp
    rw [if_neg hreq, if_neg habr, if_neg hse, if_pos hlen]
  · rw [hscc] at hsc
    simp only []
    have hss' : (!(ss.contains s)) = true → False := by
      rw [hsc]; simp
    rw [if_neg hss', if_neg habr, if_neg hse, if_pos hlen]

/-! ### Claims C3, C5, C6 -/

/-- Modelled from the spec (§4.3): the body with trailing *blank lines*
removed — trailing lines that are empty or whitespace-only are dropped, but
trailing whitespace inside the last non-blank line is kept. -/
def trimTrailingBlankLines (body : List Char) : List Char :=
  joinNL (((splitOnNL body).reverse.dropWhile (fun l => (trimChars l).isEmpty)).reverse)

/-- C3 counterexample: on the message `"feat(core): <21 a's>\nbody  "` (body
line ending in two spaces) with `maxSubjectLength = 20`, the repair function
rewrites the header and reattaches the body as `"body"` — `trimEnd()` also
strips the trailing spaces inside the last body line — whereas the body
trimmed of trailing blank lines is still `"body  "`, so the claimed output
differs from the actual one. -/
theorem C3_repair_counterexample :
    tryRepairSubjectLengthOnly
        (str "feat(core): aaaaaaaaaaaaaaaaaaaaa\nbody  ")
        [str "feat"] [str "core"] ⟨20, true, true, none⟩ =
      str "feat(core): aaaaaaaaaaaaaaaaaaaa" ++ '\n' :: str "body" ∧
    trimTrailingBlankLines (str "body  ") = str "body  " ∧
    tryRepairSubjectLengthOnly
        (str "feat(core): aaaaaaaaaaaaaaaaaaaaa\nbody  ")
        [str "feat"] [str "core"] ⟨20, true, true, none⟩ ≠
      formatHeader (str "feat") (some (str "core")) false
          (clampSubject (str "aaaaaaaaaaaaaaaaaaaaa") 20) ++
        '\n' :: trimTrailingBlankLines (str "body  ") := by
  refine ⟨by decide, by decide, by decide⟩

/-- C3 amended: for every message and rule set, the repair function returns
the message unchanged when it already validates, when its first raw line does
not parse as a header, or when the parsed subject is within the length limit;
when it does rewrite, the result is exactly the header rebuilt from the
original type, scope and breaking marker with the clamped subject, followed —
when non-empty — by a single line break and the original body joined and
stripped of *all trailing whitespace* by `trimEnd()` (not merely of trailing
blank lines). -/
theorem C3_repair_frame (m : List Char) (ts ss : List (List Char)) (r : CommitGenRules) :
    (validateCommitMessage m ts ss r = ValidationResult.ok →
      tryRepairSubjectLengthOnly m ts ss r = m) ∧
    (parseCommitHeader (trimChars ((splitOnNL m).headD [])) = none →
      tryRepairSubjectLengthOnly m ts ss r = m) ∧
    (∀ h, parseCommitHeader (trimChars ((splitOnNL m).headD [])) = some h →
      h.subject.length ≤ r.maxSubjectLength →
      tryRepairSubjectLengthOnly m ts ss r = m) ∧
    (∀ h, parseCommitHeader (trimChars ((splitOnNL m).headD [])) = some h →
      r.maxSubjectLength < h.subject.length →
      tryRepairSubjectLengthOnly m ts ss r =
        (if (trimRight (joinNL ((splitOnNL m).drop 1))).isEmpty
         then formatHeader h.type h.scope h.breaking
            (clampSubject h.subject r.maxSubjectLength)
         else formatHeader h.type h.scope h.breaking
              (clampSubject h.subject r.maxSubjectLength) ++
            '\n' :: trimRight (joinNL ((splitOnNL m).drop 1)))) :=
  ⟨fun hok => tryRepair_unchanged_of_ok hok,
   fun hp => tryRepair_unchanged_of_noparse hp,
   fun _ hp hlen => tryRepair_unchanged_of_short hp hlen,
   fun _ hp hlen => tryRepair_rewrite hp hlen⟩

theorem C3_repair_frame_witness :
    tryRepairSubjectLengthOnly
        (str "feat(core): aaaaaaaaaaaaaaaaaaaaa\nbody  ")
        [str "feat"] [str "core"] ⟨20, true, true, none⟩ =
      str "feat(core): aaaaaaaaaaaaaaaaaaaa" ++ '\n' :: str "body" := by
  have h := (C3_repair_frame (str "feat(core): aaaaaaaaaaaaaaaaaaaaa\nbody  ")
      [str "feat"] [str "core"] ⟨20, true, true, none⟩).2.2.2
      ⟨str "feat", some (str "core"), false, str "aaaaaaaaaaaaaaaaaaaaa"⟩ (by decide) (by decide)
  rw [h]
  decide

/-- C6: repair is idempotent — for every message and every rule set,
`tryRepairSubjectLengthOnly (tryRepairSubjectLengthOnly m ts ss r) ts ss r`
equals `tryRepairSubjectLengthOnly m ts ss r`. -/
theorem C6_repair_idempotent (m : List Char) (ts ss : List (List Char)) (r : CommitGenRules) :
    tryRepairSubjectLengthOnly (tryRepairSubjectLengthOnly m ts ss r) ts ss r =
      tryRepairSubjectLengthOnly m ts ss r := by
  cases hpm : parseCommitHeader (trimChars ((splitOnNL m).headD [])) with
  | none =>
    rw [tryRepair_unchanged_of_noparse hpm, tryRepair_unchanged_of_noparse hpm]
  | some h =>
    by_cases hlen : h.subject.length ≤ r.maxSubjectLength
    · rw [tryRepair_unchanged_of_short hpm hlen, tryRepair_unchanged_of_short hpm hlen]
    · have hlen2 : r.maxSubjectLength < h.subject.length := by omega
      have hparse2 := @tryRepair_header_parse m ts ss r h hpm hlen2
      by_cases hcl : clampSubject h.subject r.maxSubjectLength = []
      · rw [if_pos hcl] at hparse2
        exact tryRepair_unchanged_of_noparse hparse2
      · rw [if_neg hcl] at hparse2
        exact tryRepair_unchanged_of_short hparse2 (clampSubject_length_le _ _)

/-- C5: boundary behaviour — with a parseable header whose type, scope and
breaking marker satisfy the other rules, a subject of exactly
`maxSubjectLength` characters validates `Ok`; one character longer fails with
the reason carrying the actual and maximum lengths; and (for any positive
length limit) repair of an over-length message yields a header whose parsed
subject has length at most `maxSubjectLength` and the repaired message
re-validates `Ok`. -/
theorem C5_boundary (m : List Char) (ts ss : List (List Char)) (r : CommitGenRules)
    (h : ParsedCommitHeader)
    (hp : parseCommitHeader (trimChars ((splitOnNL (replaceCRLF m)).headD [])) = some h)
    (hty : ts.contains h.type = true)
    (hsc : match h.scope with
           | none => r.requireScope = false
           | some s => ss.contains s = true)
    (hbr : h.breaking = true → r.allowBreakingChange = true) :
    (h.subject.length = r.maxSubjectLength →
      validateCommitMessage m ts ss r = ValidationResult.ok) ∧
    (h.subject.length = r.maxSubjectLength + 1 →
      validateCommitMessage m ts ss r =
        ValidationResult.failed (reasonTooLong (r.maxSubjectLength + 1) r.maxSubjectLength)) ∧
    (1 ≤ r.maxSubjectLength → r.maxSubjectLength < h.subject.length →
      (∀ h2, parseCommitHeader
          (trimChars ((splitOnNL (tryRepairSubjectLengthOnly m ts ss r)).headD [])) = some h2 →
        h2.subject.length ≤ r.maxSubjectLength) ∧
      validateCommitMessage (tryRepairSubjectLengthOnly m ts ss r) ts ss r =
        ValidationResult.ok) := by
  obtain ⟨_, _, hsune, htr, _⟩ := parseCommitHeader_fields hp
  have hpraw : parseCommitHeader (trimChars ((splitOnNL m).headD [])) = some h := by
    rw [← validate_headerLine_eq]
    exact hp
  refine ⟨?_, ?_, ?_⟩
  · intro hlen
    exact validate_ok_of hp hty hsc hbr hsune (le_of_eq hlen)
  · intro hlen
    have := validate_too_long hp hty hsc hbr (by omega)
    rw [hlen] at this
    exact this
  · intro hmax hlen
    have hreparse := @tryRepair_header_parse m ts ss r h hpraw hlen
    have hcl : clampSubject h.subject r.maxSubjectLength ≠ [] :=
      clampSubject_of_parsed_ne_nil hsune htr hmax
    rw [if_neg hcl] at hreparse
    constructor
    · intro h2 hph2
      have heq : h2 = ⟨h.type, h.scope, h.breaking,
          clampSubject h.subject r.maxSubjectLength⟩ :=
        Option.some.inj (hph2.symm.trans hreparse)
      rw [heq]
      exact clampSubject_length_le _ _
    · have hpnorm : parseCommitHeader
          (trimChars ((splitOnNL (replaceCRLF (tryRepairSubjectLengthOnly m ts ss r))).headD []))
          = some ⟨h.type, h.scope, h.breaking,
              clampSubject h.subject r.maxSubjectLength⟩ := by
        rw [validate_headerLine_eq]
        exact hreparse
      exact validate_ok_of hpnorm hty hsc hbr hcl (clampSubject_length_le _ _)

/-! ### Claims C8 and C9 -/

/-- C8 counterexample: a configuration with a valid non-empty `scopes` list
but an explicit empty `types` array is accepted by `loadCommitGenConfig`
(the source checks only `scopes` for emptiness), and the resolved `types`
list is empty — contradicting the claimed invariant that both lists are
non-empty whenever resolution succeeds. -/
theorem C8_config_counterexample :
    loadCommitGenConfig ⟨[str "core"], some ([] : List (List Char)), {}, none⟩ =
      Except.ok ⟨[str "core"], [], ⟨72, true, true, some SubjectCase.anyCase⟩, none⟩ := by
  rfl

/-- C8 amended: whenever `loadCommitGenConfig` succeeds, the resolved scope
list is non-empty and the resolved `maxSubjectLength` lies in `[20, 120]`;
the resolved type list is guaranteed non-empty only when the configuration
omits the `types` key (so that the non-empty default list is used) — an
explicit empty or all-blank `types` array still resolves successfully, to an
empty list. -/
theorem C8_config_invariants (cfg : CommitGenConfigIn) (out : CommitGenResolvedConfig)
    (h : loadCommitGenConfig cfg = Except.ok out) :
    out.scopes ≠ [] ∧ 20 ≤ out.rules.maxSubjectLength ∧ out.rules.maxSubjectLength ≤ 120 ∧
    (cfg.types = none → out.types ≠ []) := by
  unfold loadCommitGenConfig at h
  simp only [] at h
  by_cases hsc : (uniq ((cfg.scopes.map trimChars).filter (fun s => !s.isEmpty))).isEmpty = true
  · rw [if_pos hsc] at h
    exact absurd h (by simp)
  · rw [if_neg hsc] at h
    have hout := (Except.ok.inj h).symm
    subst hout
    refine ⟨?_, ?_, ?_, ?_⟩
    · intro hnil
      apply hsc
      have hnil2 : uniq ((cfg.scopes.map trimChars).filter (fun s => !s.isEmpty)) = [] := hnil
      rw [hnil2]
      rfl
    · show 20 ≤ (clampInt (cfg.rules.maxSubjectLength.getD 72) 20 120).toNat
      have h20 : (20 : Int) ≤ clampInt (cfg.rules.maxSubjectLength.getD 72) 20 120 :=
        le_max_left _ _
      omega
    · show (clampInt (cfg.rules.maxSubjectLength.getD 72) 20 120).toNat ≤ 120
      have h120 : clampInt (cfg.rules.maxSubjectLength.getD 72) 20 120 ≤ (120 : Int) :=
        max_le (by norm_num) (min_le_left _ _)
      omega
    · intro hnone
      show uniq (((cfg.types.getD DEFAULT_TYPES).map trimChars).filter
          (fun s => !s.isEmpty)) ≠ []
      rw [hnone]
      decide

theorem C8_config_invariants_witness :
    ([str "core"] ≠ ([] : List (List Char))) ∧ (20 ≤ 72) ∧ (72 ≤ 120) ∧
    ((⟨[str "core"], none, {}, none⟩ : CommitGenConfigIn).types = none →
      DEFAULT_TYPES ≠ []) :=
  C8_config_invariants ⟨[str "core"], none, {}, none⟩
    ⟨[str "core"], DEFAULT_TYPES, ⟨72, true, true, some SubjectCase.anyCase⟩, none⟩ rfl

/-- C9: every non-2xx HTTP response is rejected with a typed error carrying
the status code and the raw response body, and the result on a non-2xx
response does not depend on the JSON decoder at all (the body is never parsed
as the success schema); a 2xx response that decodes but yields no text after
filtering, flattening and trimming the content blocks raises the typed
empty-content error; and a 401 response is translated by the orchestrator
wrapper into the specific user-facing key-rejected message. -/
theorem C9_client_errors (decodeJson decodeJson2 : List Char → Option AnthropicMessagesResponse)
    (resp : HttpResponse) :
    (resp.statusCode < 200 ∨ 300 ≤ resp.statusCode →
      anthropicGenerateText decodeJson resp =
        Except.error ⟨str "Anthropic API request failed (" ++ natStr resp.statusCode ++
            str ").", some resp.statusCode, some resp.body⟩ ∧
      anthropicGenerateText decodeJson resp = anthropicGenerateText decodeJson2 resp) ∧
    (∀ parsed, 200 ≤ resp.statusCode → resp.statusCode < 300 →
      decodeJson resp.body = some parsed →
      trimChars (((parsed.content.filter (fun b => b.type == str "text")).map
          (fun b => b.text)).flatten) = [] →
      anthropicGenerateText decodeJson resp =
        Except.error ⟨str "Anthropic API returned empty content.", none, some resp.body⟩) ∧
    (resp.statusCode = 401 →
      callAnthropicOrThrow decodeJson resp =
        Except.error (CoreError.userFacing keyRejectedMessage)) := by
  refine ⟨?_, ?_, ?_⟩
  · intro hbad
    have hcond : (decide (resp.statusCode < 200) || decide (300 ≤ resp.statusCode)) = true := by
      rcases hbad with hb | hb <;> simp [hb]
    constructor
    · unfold anthropicGenerateText
      rw [if_pos hcond]
    · unfold anthropicGenerateText
      rw [if_pos hcond, if_pos hcond]
  · intro parsed h1 h2 hdec hempty
    have hcond : (decide (resp.statusCode < 200) || decide (300 ≤ resp.statusCode)) = true →
        False := by
      intro hx
      simp only [Bool.or_eq_true, decide_eq_true_eq] at hx
      omega
    unfold anthropicGenerateText
    rw [if_neg hcond, hdec]
    simp only []
    rw [hempty]
    rfl
  · intro h401
    have hbad : resp.statusCode < 200 ∨ 300 ≤ resp.statusCode := by omega
    have hcond : (decide (resp.statusCode < 200) || decide (300 ≤ resp.statusCode)) = true := by
      rcases hbad with hb | hb <;> simp [hb]
    unfold callAnthropicOrThrow anthropicGenerateText
    rw [if_pos hcond]
    simp only []
    rw [h401]
    rfl

theorem C9_client_errors_witness :
    anthropicGenerateText (fun _ => none) ⟨404, str "oops"⟩ =
      Except.error ⟨str "Anthropic API request failed (" ++ natStr 404 ++ str ").",
        some 404, some (str "oops")⟩ ∧
    anthropicGenerateText (fun _ => some ⟨[]⟩) ⟨200, str "x"⟩ =
      Except.error ⟨str "Anthropic API returned empty content.", none, some (str "x")⟩ ∧
    callAnthropicOrThrow (fun _ => none) ⟨401, str "denied"⟩ =
      Except.error (CoreError.userFacing keyRejectedMessage) := by
  refine ⟨((C9_client_errors (fun _ => none) (fun _ => none) ⟨404, str "oops"⟩).1
      (by decide)).1, ?_, ?_⟩
  · exact (C9_client_errors (fun _ => some ⟨[]⟩) (fun _ => some ⟨[]⟩) ⟨200, str "x"⟩).2.1
      ⟨[]⟩ (by decide) (by decide) rfl (by decide)
  · exact (C9_client_errors (fun _ => none) (fun _ => none) ⟨401, str "denied"⟩).2.2 rfl

/-! ### Claim C4 -/

theorem retrySystem_append (bs reason : List Char) :
    joinNL [bs, [], str "Your previous output failed validation.",
            str "Validation error: " ++ reason,
            str "Rewrite the commit message so it passes all constraints."] =
      bs ++ str "\n\nYour previous output failed validation.\nValidation error: "
         ++ reason ++ str "\nRewrite the commit message so it passes all constraints." := by
  simp only [joinNL]
  have hpre : str "\n\nYour previous output failed validation.\nValidation error: " =
      '\n' :: '\n' :: (str "Your previous output failed validation." ++ '\n' ::
        str "Validation error: ") := by decide
  have hpost : str "\nRewrite the commit message so it passes all constraints." =
      '\n' :: str "Rewrite the commit message so it passes all constraints." := by decide
  rw [hpre, hpost]
  simp [List.append_assoc]

theorem retryUser_append (bu cand : List Char) :
    joinNL [bu, [], str "Previous output (for correction):", cand] =
      bu ++ str "\n\nPrevious output (for correction):\n" ++ cand := by
  simp only [joinNL]
  have hpre : str "\n\nPrevious output (for correction):\n" =
      '\n' :: '\n' :: (str "Previous output (for correction):" ++ ['\n']) := by decide
  rw [hpre]
  simp [List.append_assoc]

/-- C4: the orchestrator makes at most two generation calls; if the first
normalized-and-repaired candidate validates it is returned after a single
call; otherwise exactly one retry is made, whose system prompt is the
original system prompt with the first failure reason appended verbatim and
whose user prompt is the original user prompt with the rejected (normalized)
candidate appended; the second repaired candidate is returned if it
validates, and otherwise the pipeline fails with an error naming the second
failure reason. -/
theorem C4_orchestrator (gen : List Char → List Char → List Char) (inp : GenInput)
    (baseSystem baseUser : List Char)
    (hbs : baseSystem = buildSystemPrompt inp.types inp.scopes inp.rules inp.promptHints)
    (hbu : baseUser = buildUserPrompt inp.statusSummary inp.diff inp.diffKind) :
    (generateWithValidationAndRetry gen inp).2.length ≤ 2 ∧
    (validateCommitMessage
        (tryRepairSubjectLengthOnly (normalizeCommitMessageText (gen baseSystem baseUser))
          inp.types inp.scopes inp.rules) inp.types inp.scopes inp.rules =
        ValidationResult.ok →
      generateWithValidationAndRetry gen inp =
        (Except.ok (tryRepairSubjectLengthOnly
            (normalizeCommitMessageText (gen baseSystem baseUser))
            inp.types inp.scopes inp.rules),
         [(baseSystem, baseUser)])) ∧
    (∀ reason1, validateCommitMessage
        (tryRepairSubjectLengthOnly (normalizeCommitMessageText (gen baseSystem baseUser))
          inp.types inp.scopes inp.rules) inp.types inp.scopes inp.rules =
        ValidationResult.failed reason1 →
      ∃ retryS retryU,
        retryS = baseSystem ++
            str "\n\nYour previous output failed validation.\nValidation error: " ++
            reason1 ++
            str "\nRewrite the commit message so it passes all constraints." ∧
        retryU = baseUser ++ str "\n\nPrevious output (for correction):\n" ++
            normalizeCommitMessageText (gen baseSystem baseUser) ∧
        (generateWithValidationAndRetry gen inp).2 =
          [(baseSystem, baseUser), (retryS, retryU)] ∧
        (validateCommitMessage
            (tryRepairSubjectLengthOnly (normalizeCommitMessageText (gen retryS retryU))
              inp.types inp.scopes inp.rules) inp.types inp.scopes inp.rules =
            ValidationResult.ok →
          (generateWithValidationAndRetry gen inp).1 =
            Except.ok (tryRepairSubjectLengthOnly
              (normalizeCommitMessageText (gen retryS retryU))
              inp.types inp.scopes inp.rules)) ∧
        (∀ reason2, validateCommitMessage
            (tryRepairSubjectLengthOnly (normalizeCommitMessageText (gen retryS retryU))
              inp.types inp.scopes inp.rules) inp.types inp.scopes inp.rules =
            ValidationResult.failed reason2 →
          (generateWithValidationAndRetry gen inp).1 =
            Except.error
              (str "Generated message failed validation after retry: " ++ reason2))) := by
  subst hbs hbu
  refine ⟨?_, ?_, ?_⟩
  · unfold generateWithValidationAndRetry
    simp only []
    split
    · simp
    · split <;> simp
  · intro hok
    unfold generateWithValidationAndRetry
    simp only []
    rw [hok]
  · intro reason1 hfail
    refine ⟨_, _, retrySystem_append _ reason1, retryUser_append _ _, ?_, ?_, ?_⟩
    · unfold generateWithValidationAndRetry
      simp only []
      rw [hfail]
      simp only []
      split <;> rfl
    · intro hok2
      unfold generateWithValidationAndRetry
      simp only []
      rw [hfail]
      simp only []
      rw [hok2]
    · intro reason2 hfail2
      unfold generateWithValidationAndRetry
      simp only []
      rw [hfail]
      simp only []
      rw [hfail2]

theorem C4_orchestrator_witness :
    generateWithValidationAndRetry (fun _ _ => str "feat(core): add")
        ⟨[str "feat"], [str "core"], ⟨20, true, true, none⟩, none, str "D", str "S",
          DiffKind.staged⟩ =
      (Except.ok (str "feat(core): add"),
       [(buildSystemPrompt [str "feat"] [str "core"] ⟨20, true, true, none⟩ none,
         buildUserPrompt (str "S") (str "D") DiffKind.staged)]) := by
  have h := C4_orchestrator (fun _ _ => str "feat(core): add")
      ⟨[str "feat"], [str "core"], ⟨20, true, true, none⟩, none, str "D", str "S",
        DiffKind.staged⟩
      (buildSystemPrompt [str "feat"] [str "core"] ⟨20, true, true, none⟩ none)
      (buildUserPrompt (str "S") (str "D") DiffKind.staged) rfl rfl
  have h2 := h.2.1 (by decide)
  rw [h2]
  refine congrArg₂ Prod.mk ?_ rfl
  exact congrArg Except.ok (by decide)

theorem C5_boundary_witness :
    validateCommitMessage (str "feat(core): aaaaaaaaaaaaaaaaaaaaa") [str "feat"] [str "core"]
        ⟨20, true, true, none⟩ =
      ValidationResult.failed (reasonTooLong 21 20) ∧
    validateCommitMessage
        (tryRepairSubjectLengthOnly (str "feat(core): aaaaaaaaaaaaaaaaaaaaa") [str "feat"] [str "core"]
          ⟨20, true, true, none⟩)
        [str "feat"] [str "core"] ⟨20, true, true, none⟩ = ValidationResult.ok ∧
    validateCommitMessage (str "feat(core): aaaaaaaaaaaaaaaaaaaa") [str "feat"] [str "core"]
        ⟨20, true, true, none⟩ = ValidationResult.ok := by
  have h1 := C5_boundary (str "feat(core): aaaaaaaaaaaaaaaaaaaaa") [str "feat"] [str "core"]
      ⟨20, true, true, none⟩ ⟨str "feat", some (str "core"), false, str "aaaaaaaaaaaaaaaaaaaaa"⟩
      (by decide) (by decide) (by decide) (by decide)
  have h2 := C5_boundary (str "feat(core): aaaaaaaaaaaaaaaaaaaa") [str "feat"] [str "core"]
      ⟨20, true, true, none⟩ ⟨str "feat", some (str "core"), false, str "aaaaaaaaaaaaaaaaaaaa"⟩
      (by decide) (by decide) (by decide) (by decide)
  exact ⟨h1.2.1 (by decide), (h1.2.2 (by decide) (by decide)).2, h2.1 (by decide)⟩

end CommitGen
